import Mathlib

/-!
A shallow embedding of the minesweeper-ai repository's solver core
(minesweeper_solver.py, minesweeper_ai.py, minesweeper.py), together with
theorems settling the specification claims.

The game object (`GameCtx`) holds the fields of the Python game the solver
reads during one `analyzeBoard` call (`game.rows`, `game.cols`, `game.mines`,
`game.board`); the board is immutable from the solver's perspective between
moves.  `Dyn` holds the solver instance's own mutable fields
(`mines`, `safeUnrevealed`, `squaresByProb`, `expectedMineTotal`,
`minMineTotal`, `maxMineTotal`).  The diagnostic `(self.row, self.col)` pair
is modeled as the coordinate returned by `determineMove`.

Python sets of coordinates are modeled as duplicate-free lists in insertion
order (`SInsert`/`SUnion`); Python dicts as association lists in insertion
order; Python floats as rationals; Python big-int bit vectors as `Nat`.
An uncaught Python exception (KeyError / ZeroDivisionError / IndexError /
ValueError) is modeled as `none` / `.crash`.
-/

namespace MSW

abbrev Pos := Int × Int

/-- Set insertion for coordinate sets modeled as duplicate-free lists. -/
def SInsert (x : Pos) (l : List Pos) : List Pos := if x ∈ l then l else l ++ [x]

/-- `l.update(xs)` on coordinate sets modeled as duplicate-free lists. -/
def SUnion (l : List Pos) (xs : List Pos) : List Pos := xs.foldl (fun acc x => SInsert x acc) l

/-- Set insertion for sets of partial solutions (pairs of bit vectors). -/
def insertPair (x : Nat × Nat) (l : List (Nat × Nat)) : List (Nat × Nat) :=
  if x ∈ l then l else l ++ [x]

/-- A Python float arising in this program: always an exact fraction (the
programs only add, subtract, divide and compare small exact ratios), kept
unnormalized with a positive denominator so that all operations are plain
integer arithmetic.  Comparisons are by value (cross-multiplication), as
float comparisons are. -/
structure PyFloat where
  num : Int
  den : Int
deriving Repr, DecidableEq

/-- Embed an integer. -/
def pfOfInt (n : Int) : PyFloat := ⟨n, 1⟩

/-- Float addition. -/
def pfAdd (a b : PyFloat) : PyFloat := ⟨a.num * b.den + b.num * a.den, a.den * b.den⟩

/-- Float subtraction. -/
def pfSub (a b : PyFloat) : PyFloat := ⟨a.num * b.den - b.num * a.den, a.den * b.den⟩

/-- Float division by an integer (call sites guarantee it is nonzero). -/
def pfDivInt (a : PyFloat) (n : Int) : PyFloat :=
  if n < 0 then ⟨-a.num, a.den * (-n)⟩ else ⟨a.num, a.den * n⟩

/-- The exact ratio of two naturals (a Python `int / int` division). -/
def pfRatio (a b : Nat) : PyFloat := ⟨a, b⟩

/-- Value equality of floats. -/
def pfEq (a b : PyFloat) : Bool := a.num * b.den == b.num * a.den

/-- Value order on floats. -/
def pfLe (a b : PyFloat) : Bool := decide (a.num * b.den ≤ b.num * a.den)

/-- Python `max(a, b)`: returns `a` when `a >= b`, else `b`. -/
def pfMax (a b : PyFloat) : PyFloat := if pfLe b a then a else b

/-- Python `min(a, b)`: returns `a` when `a <= b`, else `b`. -/
def pfMin (a b : PyFloat) : PyFloat := if pfLe a b then a else b

/-- The game fields read by the solver: `game.rows`, `game.cols`,
`game.mines` and the board contents. -/
structure GameCtx where
  rows : Int
  cols : Int
  gameMines : Int
  board : List (List Char)
deriving Repr, DecidableEq

/-- The solver instance's own state (`resetSolverState` fields). -/
structure Dyn where
  mines : List Pos
  safeUnrevealed : List Pos
  squaresByProb : List (PyFloat × List Pos)
  expectedMineTotal : PyFloat
  minMineTotal : Int
  maxMineTotal : Int
deriving Repr, DecidableEq

/-- `Minesweeper.safeGet`: board cell, or `none` out of bounds. -/
def gameSafeGet (g : GameCtx) (p : Pos) : Option Char :=
  if p.1 < 0 ∨ p.1 ≥ g.rows ∨ p.2 < 0 ∨ p.2 ≥ g.cols then none
  else some ((g.board.getD p.1.toNat []).getD p.2.toNat '?')

/-- `MinesweeperSolver.safeGet`: overlays the solver's `mines` and
`safeUnrevealed` annotations on the game board. -/
def solverSafeGet (g : GameCtx) (d : Dyn) (p : Pos) : Option Char :=
  if p ∈ d.mines then some '*'
  else if p ∈ d.safeUnrevealed then some 'S'
  else gameSafeGet g p

/-- The 8 surrounding coordinates in the row-major order in which
`getSurroundingSquares` generates them. -/
def neighborsRC (i j : Int) : List Pos :=
  [(i-1, j-1), (i-1, j), (i-1, j+1), (i, j-1), (i, j+1), (i+1, j-1), (i+1, j), (i+1, j+1)]

/-- `MinesweeperAI.getSurroundingSquares`: in-bounds surrounding squares
filtered by a condition, with their values (solver's `safeGet` view). -/
def surround (g : GameCtx) (d : Dyn) (i j : Int) (cond : Pos → Char → Bool) :
    List (Pos × Char) :=
  (neighborsRC i j).filterMap (fun p =>
    match solverSafeGet g d p with
    | none => none
    | some v => if cond p v then some (p, v) else none)

/-- `getSurroundingSquares` with `transformSqFn = justPosition`. -/
def surroundPos (g : GameCtx) (d : Dyn) (i j : Int) (cond : Pos → Char → Bool) : List Pos :=
  (surround g d i j cond).map Prod.fst

/-- `getSurroundingSquares` with `transformGenFn = asCount`. -/
def surroundCount (g : GameCtx) (d : Dyn) (i j : Int) (cond : Pos → Char → Bool) : Nat :=
  (surround g d i j cond).length

/-- `MinesweeperAI.isUnknown`. -/
def isUnknownP : Pos → Char → Bool := fun _ v => v == '?'

/-- `MinesweeperAI.isMine`. -/
def isMineP : Pos → Char → Bool := fun _ v => v == '*'

/-- `MinesweeperAI.isNum`. -/
def isNumP : Pos → Char → Bool := fun _ v => v.isDigit

/-- Solver's view of a cell as a character (call sites guarantee in-bounds). -/
def getCh (g : GameCtx) (d : Dyn) (p : Pos) : Char := (solverSafeGet g d p).getD ' '

/-- `int(...)` applied to a digit character. -/
def numberOf (c : Char) : Int := (c.toNat : Int) - ('0'.toNat : Int)

/-- `MinesweeperAI.distance`: Chebyshev distance. -/
def chebyshev (p q : Pos) : Nat := max (p.1 - q.1).natAbs (p.2 - q.2).natAbs

/-- All board coordinates in row-major order, as generated by the Python
comprehensions over `range(rows) x range(cols)`. -/
def allCells (g : GameCtx) : List Pos :=
  ((List.range g.rows.toNat).map (fun i =>
    (List.range g.cols.toNat).map (fun j => ((Nat.cast i : Int), (Nat.cast j : Int))))).flatten

/-- The `nonAdjacentSafes` comprehension in `analyzeNumSquare`: all board
cells at Chebyshev distance above 1 from `(i, j)` that the solver still
sees as unrevealed and unmarked. -/
def nonAdjacentSafes (g : GameCtx) (d : Dyn) (i j : Int) : List Pos :=
  (allCells g).filter (fun q =>
    decide (1 < chebyshev (i, j) q) && (solverSafeGet g d q == some '?'))

/-- `MinesweeperSolver.analyzeNumSquare`: per-numbered-square local
deductions.  Returns the updated solver state, the updated `newMarks` set,
and whether the square is complete. -/
def analyzeNumSquare (g : GameCtx) (d : Dyn) (i j : Int) (nm : List Pos) :
    Dyn × List Pos × Bool :=
  let unknowns := surroundPos g d i j isUnknownP
  if unknowns.isEmpty then (d, nm, true) else
  let number := numberOf (getCh g d (i, j))
  let minesAdj := surroundPos g d i j isMineP
  let numRemainingMines : Int := number - minesAdj.length
  let gameRemainingMines : Int := g.gameMines - d.mines.length
  let numRemainingSafes : Int := (unknowns.length : Int) - numRemainingMines
  let step1 : Dyn × List Pos :=
    if numRemainingMines = gameRemainingMines then
      ({d with safeUnrevealed := SUnion d.safeUnrevealed (nonAdjacentSafes g d i j)},
       SUnion nm (nonAdjacentSafes g d i j))
    else (d, nm)
  let d1 := step1.1
  let nm1 := step1.2
  if numRemainingSafes = 0 then
    ({d1 with mines := SUnion d1.mines unknowns}, SUnion nm1 unknowns, true)
  else if numRemainingMines = 0 then
    ({d1 with safeUnrevealed := SUnion d1.safeUnrevealed unknowns}, SUnion nm1 unknowns, true)
  else (d1, nm1, false)

/-- `MinesweeperSolver.getNonFrontierUnknowns`. -/
def getNonFrontierUnknowns (g : GameCtx) (d : Dyn) : List Pos :=
  (allCells g).filter (fun p =>
    (solverSafeGet g d p == some '?') && (surroundCount g d p.1 p.2 isNumP == 0))

/-- `MinesweeperSolver.checkFrontierMineRanges`.  (The Python function takes
the frontier list as a parameter but never uses it.)  Returns the updated
state and whether any new squares were marked. -/
def checkFrontierMineRanges (g : GameCtx) (d : Dyn) : Dyn × Bool :=
  let gameRemainingMines : Int := g.gameMines - d.mines.length
  let nonFrontierUnknowns := getNonFrontierUnknowns g d
  if nonFrontierUnknowns.isEmpty then (d, false)
  else if gameRemainingMines - d.maxMineTotal = (nonFrontierUnknowns.length : Int) then
    ({d with mines := SUnion d.mines nonFrontierUnknowns}, true)
  else if gameRemainingMines = d.minMineTotal then
    ({d with safeUnrevealed := SUnion d.safeUnrevealed nonFrontierUnknowns}, true)
  else (d, false)

/-- A frontier triple `(numSquares, unknownSquares, newMarkSquares)` as built
in `markSafeAndMines`. -/
structure Frontier where
  nums : List Pos
  unknowns : List Pos
  newMarks : List Pos
deriving Repr, DecidableEq

/-- `MinesweeperSolver.checkFrontiersWereSplitUp`.  Returns the updated state
and whether any mines or safes were marked. -/
def checkFrontiersWereSplitUp (g : GameCtx) (d : Dyn) (frontiers : List Frontier) :
    Dyn × Bool :=
  let nums := frontiers.map (fun f =>
    (f.nums.map (fun mn =>
      numberOf (getCh g d mn) - (surroundCount g d mn.1 mn.2 isMineP : Int))).sum)
  let sumAllFrontiersNums := nums.sum
  let overlaps := frontiers.map (fun f =>
    ((f.unknowns.filter (fun mn => solverSafeGet g d mn == some '?')).filter (fun mn =>
      1 < surroundCount g d mn.1 mn.2 (fun p _ => decide (p ∈ f.nums)))).length)
  let sumAllFrontiersOverlaps := overlaps.sum
  if sumAllFrontiersOverlaps ≠ 0 then (d, false) else
  let nonFrontierUnknowns := getNonFrontierUnknowns g d
  if nonFrontierUnknowns.isEmpty then (d, false) else
  let origMineCount := d.mines.length
  let origSafeCount := d.safeUnrevealed.length
  let gameRemainingMines : Int := g.gameMines - origMineCount
  if sumAllFrontiersNums = gameRemainingMines then
    let d2 := {d with safeUnrevealed := SUnion d.safeUnrevealed nonFrontierUnknowns}
    (d2, decide (origMineCount ≠ d2.mines.length ∨ origSafeCount ≠ d2.safeUnrevealed.length))
  else if (nonFrontierUnknowns.length : Int) = gameRemainingMines - sumAllFrontiersNums then
    let d2 := {d with mines := SUnion d.mines nonFrontierUnknowns}
    (d2, decide (origMineCount ≠ d2.mines.length ∨ origSafeCount ≠ d2.safeUnrevealed.length))
  else (d, false)

/-- Orders `nums` by Chebyshev distance from `c`, ties in list order.  This is
both the `squares` list built by the growing-radius loop in
`analyzeNumSquaresInOrderFromNewMarks` and the stable
`numSquaresByDistFromRefSquare` sort in `markSafeAndMines`. -/
def sortByDistFrom (nums : List Pos) (c : Pos) : List Pos :=
  ((List.range ((nums.map (fun p => chebyshev c p)).foldl max 0 + 1)).map (fun k =>
    nums.filter (fun p => chebyshev c p == k))).flatten

/-- One radial sweep (forward then reversed) of `analyzeNumSquare` over
`squares`, threading the solver state and `newMarks`. -/
def sweepSquares (g : GameCtx) (squares : List Pos) (acc : Dyn × List Pos) : Dyn × List Pos :=
  let a1 := squares.foldl (fun (a : Dyn × List Pos) pq =>
    let r := analyzeNumSquare g a.1 pq.1 pq.2 a.2
    (r.1, r.2.1)) acc
  squares.reverse.foldl (fun (a : Dyn × List Pos) pq =>
    let r := analyzeNumSquare g a.1 pq.1 pq.2 a.2
    (r.1, r.2.1)) a1

/-- `MinesweeperSolver.analyzeNumSquaresInOrderFromNewMarks`.  Returns the
updated state, the frontier list with `unknownSquares` pruned of marked
squares, the updated `newMarks`, and whether any new squares were marked. -/
def analyzeNumSquaresInOrderFromNewMarks (g : GameCtx) (d : Dyn) (frontiers : List Frontier)
    (nm : List Pos) : Dyn × List Frontier × List Pos × Bool :=
  let origMarkCount := nm.length
  let res := frontiers.foldl (fun (acc : Dyn × List Frontier × List Pos) f =>
    let d0 := acc.1
    let fsAcc := acc.2.1
    let nm0 := acc.2.2
    let swept := f.newMarks.foldl (fun (a : Dyn × List Pos) mn =>
      sweepSquares g (sortByDistFrom f.nums mn) a) (d0, nm0)
    let d1 := swept.1
    let f2 := {f with unknowns := f.unknowns.filter (fun u => solverSafeGet g d1 u == some '?')}
    (d1, fsAcc ++ [f2], swept.2)) (d, [], nm)
  (res.1, res.2.1, res.2.2, decide (origMarkCount < res.2.2.length))

/-- The frontier-expansion loop in `markSafeAndMines` (the `while unknowns`
loop): alternately collects the unseen numbered squares adjacent to the
current unknowns and the unseen unknowns adjacent to those numbers.
State: `(seen, frontierNums, frontierUnknowns)`. -/
def buildFrontierLoop (g : GameCtx) (d : Dyn) :
    Nat → List Pos → List Pos → List Pos → List Pos → List Pos × List Pos × List Pos
  | 0, seen, fNums, fUnk, _ => (seen, fNums, fUnk)
  | fuel+1, seen, fNums, fUnk, unknowns =>
    if unknowns.isEmpty then (seen, fNums, fUnk)
    else
      let nextNumbers := unknowns.foldl (fun acc mn =>
        SUnion acc (surroundPos g d mn.1 mn.2 (fun p v => v.isDigit && decide (p ∉ seen)))) []
      let fNums2 := SUnion fNums nextNumbers
      let seen2 := SUnion seen nextNumbers
      let unknowns2 := nextNumbers.foldl (fun acc mn =>
        SUnion acc (surroundPos g d mn.1 mn.2 (fun p v => (v == '?') && decide (p ∉ seen2)))) []
      let fUnk2 := SUnion fUnk unknowns2
      let seen3 := SUnion seen2 unknowns2
      buildFrontierLoop g d fuel seen3 fNums2 fUnk2 unknowns2

/-- The frontier-building pass of `markSafeAndMines`: seeded flood fill over
the numbered squares not yet marked as complete (`seen`). -/
def buildFrontiers (g : GameCtx) (d : Dyn) (numbered : List Pos) (seen0 : List Pos)
    (nm : List Pos) : List Frontier × List Pos :=
  numbered.foldl (fun (acc : List Frontier × List Pos) ij =>
    let fs := acc.1
    let seen := acc.2
    if ij ∈ seen then acc else
    let seen := SInsert ij seen
    let unknowns0 := surroundPos g d ij.1 ij.2 (fun p v => (v == '?') && decide (p ∉ seen))
    let seen := SUnion seen unknowns0
    let fuel := g.rows.toNat * g.cols.toNat + 2
    let loopRes := buildFrontierLoop g d fuel seen [ij] unknowns0 unknowns0
    let fNums := loopRes.2.1
    let fUnk := loopRes.2.2
    let fMarks := nm.filter (fun mn =>
      ¬ (surround g d mn.1 mn.2 (fun p v => v.isDigit && decide (p ∈ fNums))).isEmpty)
    (fs ++ [⟨fNums, fUnk, fMarks⟩], loopRes.1)) ([], seen0)

/-- The `while markedSquares and not self.safeUnrevealed` fixpoint loops of
`markSafeAndMines` (entered with `markedSquares = True`). -/
def fixLoop (g : GameCtx) :
    Nat → Dyn → List Frontier → List Pos → Dyn × List Frontier × List Pos
  | 0, d, fs, nm => (d, fs, nm)
  | fuel+1, d, fs, nm =>
    if ¬ d.safeUnrevealed.isEmpty then (d, fs, nm)
    else
      let r := analyzeNumSquaresInOrderFromNewMarks g d fs nm
      if r.2.2.2 then fixLoop g fuel r.1 r.2.1 r.2.2.1 else (r.1, r.2.1, r.2.2.1)

/-- `int.bit_count()`: population count of a natural number (the fuel
argument bounds the number of binary digits; `bitCount n = go n n` since
`n` has at most `n` binary digits). -/
def bitCountGo : Nat → Nat → Nat
  | 0, _ => 0
  | _+1, 0 => 0
  | fuel+1, m => m % 2 + bitCountGo fuel (m / 2)

/-- `int.bit_count()` on a `Nat` bit vector. -/
def bitCount (n : Nat) : Nat := bitCountGo n n

/-- Result of the per-frontier enumeration step inside `markSafeAndMines`:
an uncaught exception, an early `return` out of `markSafeAndMines` (a safe
square was found), or normal continuation with the updated state and
`newMarks`. -/
inductive ERes where
  | crash : ERes
  | stop : Dyn → ERes
  | next : Dyn → List Pos → ERes
deriving Repr, DecidableEq

/-- `numSquareMinesRemaining`: the numbered squares of a frontier with a
nonzero remaining-mine count, with those counts (dict as assoc list). -/
def remainingList (g : GameCtx) (d : Dyn) (nums : List Pos) : List (Pos × Int) :=
  nums.filterMap (fun mn =>
    let r : Int := numberOf (getCh g d mn) - (surroundCount g d mn.1 mn.2 isMineP : Int)
    if r ≠ 0 then some (mn, r) else none)

/-- The partial solutions for one numbered square: every assignment of
exactly `minesRemaining` mines to its adjacent unknown positions, as a pair
(mine bits, forbidden bits).  `none` models the `KeyError` raised when an
adjacent unknown is missing from `unknownSquarePositions`. -/
def seedOne (g : GameCtx) (d : Dyn) (unknownSquares : List Pos) (m n : Int)
    (minesRemaining : Int) : Option (List (Nat × Nat)) :=
  let adj := surroundPos g d m n isUnknownP
  match adj.mapM (fun p => unknownSquares.findIdx? (fun q => q == p)) with
  | none => none
  | some positions =>
    let numSquareUnknownMask := (positions.map (fun o => 2 ^ o)).sum
    some ((List.range (2 ^ positions.length)).foldl (fun acc i =>
      if (bitCount i : Int) = minesRemaining then
        let solution := ((List.range positions.length).filterMap (fun off =>
          if (i >>> off) % 2 == 1 then some (2 ^ (positions.getD off 0)) else none)).sum
        insertPair (solution, solution ^^^ numSquareUnknownMask) acc
      else acc) [])

/-- The per-constraint seeding loop of `markSafeAndMines`: builds
`numSquareSolutions` for every numbered square of the frontier, in frontier
order.  `none` models an uncaught `KeyError` (in particular the lookup
`numSquareMinesRemaining[(m, n)]` for a square whose remaining count is 0,
which the dict comprehension omitted). -/
def seedSolutions (g : GameCtx) (d : Dyn) (unknownSquares : List Pos)
    (remaining : List (Pos × Int)) : List Pos → Option (List (Pos × List (Nat × Nat)))
  | [] => some []
  | mn :: rest =>
    match remaining.find? (fun kv => kv.1 == mn) with
    | none => none
    | some kv =>
      match seedOne g d unknownSquares mn.1 mn.2 kv.2 with
      | none => none
      | some sols =>
        match seedSolutions g d unknownSquares remaining rest with
        | none => none
        | some acc => some ((mn, sols) :: acc)

/-- One pairwise merge of two partial-solution sets with conflict pruning. -/
def mergeTwo (A B : List (Nat × Nat)) : List (Nat × Nat) :=
  A.foldl (fun acc a => B.foldl (fun acc2 b =>
    let solMines := a.1 ||| b.1
    let solNotMines := a.2 ||| b.2
    if solNotMines &&& solMines == 0 then insertPair (solMines, solNotMines) acc2
    else acc2) acc) []

/-- One level of the merge loop: merge adjacent pairs (an odd trailing set is
kept as is), then discard empty sets. -/
def mergeLevel : List (List (Nat × Nat)) → List (List (Nat × Nat))
  | a :: b :: rest => (mergeTwo a b :: mergeLevel rest).filter (fun s => ¬ s.isEmpty)
  | l => l.filter (fun s => ¬ s.isEmpty)

/-- The `while len(partialSolutionSets) > 1` merge loop. -/
def mergeLoop : Nat → List (List (Nat × Nat)) → List (List (Nat × Nat))
  | 0, sets => sets
  | fuel+1, sets => if sets.length ≤ 1 then sets else mergeLoop fuel (mergeLevel sets)

/-- Adding a square under a probability key in the `squaresByProb` dict
(float keys compare by value). -/
def probInsert (q : PyFloat) (u : Pos) (l : List (PyFloat × List Pos)) :
    List (PyFloat × List Pos) :=
  if l.any (fun kv => pfEq kv.1 q) then
    l.map (fun kv => if pfEq kv.1 q then (kv.1, kv.2 ++ [u]) else kv)
  else l ++ [(q, [u])]

/-- The tally loop over a frontier's unknown squares: an unknown in zero
surviving solutions is marked safe and `markSafeAndMines` returns at once
(`.stop`); an unknown in all solutions is marked as a mine (decrementing the
three totals); otherwise its probability is recorded in `squaresByProb`. -/
def tallyLoop (numSolutions : Nat) (cnt : Pos → Nat) :
    List Pos → Dyn → List Pos → ERes
  | [], d, nm => .next d nm
  | u :: us, d, nm =>
    let c := cnt u
    if c = 0 then .stop {d with safeUnrevealed := SInsert u d.safeUnrevealed}
    else if c = numSolutions then
      tallyLoop numSolutions cnt us
        {d with mines := SInsert u d.mines,
                minMineTotal := d.minMineTotal - 1,
                maxMineTotal := d.maxMineTotal - 1,
                expectedMineTotal := pfSub d.expectedMineTotal (pfOfInt 1)}
        (SInsert u nm)
    else
      tallyLoop numSolutions cnt us
        {d with squaresByProb := probInsert (pfRatio c numSolutions) u d.squaresByProb}
        nm

/-- `solutionsWhereMine`: how many surviving solutions set a mine at `p`. -/
def solutionsWhereMine (unknownSquares : List Pos) (sols : List Nat) (p : Pos) : Nat :=
  (sols.filter (fun sol =>
    sol &&& (2 ^ (unknownSquares.findIdx (fun q => q == p))) ≠ 0)).length

/-- One iteration of the per-frontier enumeration loop in
`markSafeAndMines` (seeding, distance-ordered pairwise merge, global-mine
pruning, totals accumulation, and the tally loop). -/
def processFrontier (g : GameCtx) (f : Frontier) (d : Dyn) (nm : List Pos) : ERes :=
  let unknownSquares := f.unknowns
  let remaining := remainingList g d f.nums
  match seedSolutions g d unknownSquares remaining f.nums with
  | none => .crash
  | some seedSets =>
    match f.nums with
    | [] => .crash
    | referenceSq :: _ =>
      let ordered := sortByDistFrom f.nums referenceSq
      let sets0 := ordered.map (fun sq =>
        ((seedSets.find? (fun kv => kv.1 == sq)).map Prod.snd).getD [])
      let sets := mergeLoop (sets0.length + 2) sets0
      match sets with
      | [] => .crash
      | S :: _ =>
        let sols := (S.map Prod.fst).filter (fun sol =>
          (bitCount sol : Int) ≤ g.gameMines - d.mines.length)
        let numSolutions := sols.length
        if numSolutions = 0 then .crash
        else
          let minesSetEachSol := sols.map bitCount
          let mineBitsSet := minesSetEachSol.sum
          let d2 := {d with
            expectedMineTotal := pfAdd d.expectedMineTotal (pfRatio mineBitsSet numSolutions),
            minMineTotal := d.minMineTotal + ((minesSetEachSol.min?.getD 0 : Nat) : Int),
            maxMineTotal := d.maxMineTotal + ((minesSetEachSol.max?.getD 0 : Nat) : Int)}
          tallyLoop numSolutions (solutionsWhereMine unknownSquares sols) unknownSquares d2 nm

/-- The `for frontierNum in range(len(frontiers))` enumeration loop. -/
def processFrontiers (g : GameCtx) : List Frontier → Dyn → List Pos → ERes
  | [], d, nm => .next d nm
  | f :: fs, d, nm =>
    match processFrontier g f d nm with
    | .crash => .crash
    | .stop d2 => .stop d2
    | .next d2 nm2 => processFrontiers g fs d2 nm2

/-- `MinesweeperSolver.resetSolverState` (without the diagnostic last-move
pair, which no analysis reads). -/
def initDyn : Dyn := ⟨[], [], [], pfOfInt 0, 0, 0⟩

/-- `MinesweeperSolver.markSafeAndMines`.  `none` models an uncaught
exception (e.g. the ZeroDivisionError reached when a frontier has zero
surviving partial solutions). -/
def markSafeAndMines (g : GameCtx) (d0 : Dyn) : Option Dyn :=
  let fuel := g.rows.toNat * g.cols.toNat + 2
  let numberedSquares := (allCells g).filter (fun p => (getCh g d0 p).isDigit)
  let pass1 := numberedSquares.foldl (fun (acc : Dyn × List Pos × List Pos) ij =>
    let r := analyzeNumSquare g acc.1 ij.1 ij.2 acc.2.1
    (r.1, r.2.1, if r.2.2 then SInsert ij acc.2.2 else acc.2.2)) (d0, [], [])
  let pass2 := numberedSquares.reverse.foldl (fun (acc : Dyn × List Pos × List Pos) ij =>
    if ij ∈ acc.2.2 then acc else
    let r := analyzeNumSquare g acc.1 ij.1 ij.2 acc.2.1
    (r.1, r.2.1, if r.2.2 then SInsert ij acc.2.2 else acc.2.2)) pass1
  let d1 := pass2.1
  let nm1 := pass2.2.1
  let built := buildFrontiers g d1 numberedSquares pass2.2.2 nm1
  let frontiers := built.1
  let loop1 := fixLoop g fuel d1 frontiers nm1
  let d2 := loop1.1
  if ¬ d2.safeUnrevealed.isEmpty then some d2 else
  let split1 := checkFrontiersWereSplitUp g d2 loop1.2.1
  let d3 := split1.1
  if ¬ d3.safeUnrevealed.isEmpty then some d3 else
  match processFrontiers g loop1.2.1 d3 [] with
  | .crash => none
  | .stop dE => some dE
  | .next d4 nm4 =>
    let oldMines := d4.mines
    let loop2 := fixLoop g fuel d4 loop1.2.1 nm4
    let d5 := loop2.1
    let minesAdded : Int := (d5.mines.filter (fun p => p ∉ oldMines)).length
    let d6 := {d5 with
      maxMineTotal := max 0 (d5.maxMineTotal - minesAdded),
      minMineTotal := max 0 (d5.minMineTotal - minesAdded),
      expectedMineTotal := pfMax (pfOfInt 0) (pfSub d5.expectedMineTotal (pfOfInt minesAdded))}
    let d7 := {d6 with
      maxMineTotal := min d6.maxMineTotal (g.gameMines - d6.mines.length),
      minMineTotal := max d6.minMineTotal
        (g.gameMines - d6.mines.length - (getNonFrontierUnknowns g d6).length)}
    let d8 := {d7 with expectedMineTotal := pfMax (pfOfInt d7.minMineTotal) d7.expectedMineTotal}
    let d9 := {d8 with expectedMineTotal := pfMin (pfOfInt d8.maxMineTotal) d8.expectedMineTotal}
    let d10 := (checkFrontierMineRanges g d9).1
    let d11 := (checkFrontiersWereSplitUp g d10 loop2.2.1).1
    some {d11 with squaresByProb := d11.squaresByProb.filterMap (fun kv =>
      let kept := kv.2.filter (fun sq => decide (sq ∉ d11.mines))
      if kept.isEmpty then none else some (kv.1, kept))}

/-- `MinesweeperSolver.analyzeBoard`: prune `safeUnrevealed` of squares the
game has revealed (via the game's own `safeGet`), reset `squaresByProb` and
the mine totals, then run `markSafeAndMines`. -/
def analyzeBoard (g : GameCtx) (d : Dyn) : Option Dyn :=
  markSafeAndMines g
    ⟨d.mines, d.safeUnrevealed.filter (fun p => gameSafeGet g p == some '?'), [], pfOfInt 0, 0, 0⟩

/-- `MinesweeperSolver.selectMovePreferCornersEdges`.  The `randint(0, n-1)`
draw is modeled by reducing the oracle `r` modulo the candidate count;
`none` models the ValueError of `randint(0, -1)` on an empty pool. -/
def selectMovePreferCornersEdges (g : GameCtx) (potentialMoves : List Pos) (r : Nat) :
    Option Pos :=
  let moveCorner := potentialMoves.filter (fun p =>
    (decide (p.1 = 0) || decide (p.1 = g.rows - 1)) &&
    (decide (p.2 = 0) || decide (p.2 = g.cols - 1)))
  if ¬ moveCorner.isEmpty then some (moveCorner.getD (r % moveCorner.length) (0, 0))
  else
    let moveEdge := potentialMoves.filter (fun p =>
      decide (p.1 = 0) || decide (p.1 = g.rows - 1) ||
      decide (p.2 = 0) || decide (p.2 = g.cols - 1))
    if ¬ moveEdge.isEmpty then some (moveEdge.getD (r % moveEdge.length) (0, 0))
    else if potentialMoves.isEmpty then none
    else some (potentialMoves.getD (r % potentialMoves.length) (0, 0))

/-- `min(self.squaresByProb)`: the minimum probability key. -/
def minProbKey (l : List (PyFloat × List Pos)) : PyFloat :=
  match l with
  | [] => pfOfInt 0
  | kv :: rest => rest.foldl (fun m x => if pfLe m x.1 then m else x.1) kv.1

/-- `self.squaresByProb[minProb]` (float keys compare by value). -/
def minProbSquares (l : List (PyFloat × List Pos)) : List Pos :=
  ((l.find? (fun kv => pfEq kv.1 (minProbKey l))).map Prod.snd).getD []

/-- `MinesweeperSolver.determineMove`.  Returns the updated solver state
(an element may be popped from `safeUnrevealed`) and the chosen coordinate;
`r` is the random oracle.  `none` models the ValueError of `randint(0, -1)`
when the final fallback finds no unrevealed squares. -/
def determineMove (g : GameCtx) (d : Dyn) (r : Nat) : Option (Dyn × Pos) :=
  match d.safeUnrevealed with
  | m :: rest => some ({d with safeUnrevealed := rest}, m)
  | [] =>
    let minesNotInFrontiers : PyFloat :=
      pfSub (pfOfInt (g.gameMines - d.mines.length)) d.expectedMineTotal
    let nonFrontierUnknowns := getNonFrontierUnknowns g d
    if ¬ d.squaresByProb.isEmpty ∧
        (nonFrontierUnknowns.isEmpty ∨
          pfLe (minProbKey d.squaresByProb)
            (pfDivInt minesNotInFrontiers nonFrontierUnknowns.length) = true)
    then
      (selectMovePreferCornersEdges g (minProbSquares d.squaresByProb) r).map (fun m => (d, m))
    else if ¬ nonFrontierUnknowns.isEmpty then
      (selectMovePreferCornersEdges g nonFrontierUnknowns r).map (fun m => (d, m))
    else
      let unknownsOnBoard := (allCells g).filter (fun p => gameSafeGet g p == some '?')
      if unknownsOnBoard.isEmpty then none
      else some (d, unknownsOnBoard.getD (r % unknownsOnBoard.length) (0, 0))

/-- The `Minesweeper` game instance state (minesweeper.py). -/
structure MSGame where
  rows : Int
  cols : Int
  mines : Int
  board : List (List Char)
  mineLocations : List Pos
  seen : Int
  inProgress : Bool
deriving Repr, DecidableEq

/-- `Minesweeper.defaultGameConfig`. -/
def defaultGameConfig : Int × Int × Int := (16, 16, 40)

/-- `Minesweeper.validGameConfig`: a 3-tuple with all components truthy
(nonzero) and `mines < rows * cols`.  The empty tuple default is `none`. -/
def validGameConfig (cfg : Option (Int × Int × Int)) : Bool :=
  match cfg with
  | none => false
  | some (r, c, m) => (r ≠ 0 : Bool) && (c ≠ 0 : Bool) && (m ≠ 0 : Bool) && decide (m < r * c)

/-- `Minesweeper.reset`: install the config if valid, else keep the current
one (or the default when the current one has a falsy component), and start a
fresh in-progress game. -/
def msReset (g : MSGame) (cfg : Option (Int × Int × Int)) : MSGame :=
  let rcm :=
    if validGameConfig cfg then cfg.getD defaultGameConfig
    else if g.rows ≠ 0 ∧ g.cols ≠ 0 ∧ g.mines ≠ 0 then (g.rows, g.cols, g.mines)
    else defaultGameConfig
  { rows := rcm.1, cols := rcm.2.1, mines := rcm.2.2,
    board := List.replicate rcm.1.toNat (List.replicate rcm.2.1.toNat '?'),
    mineLocations := [], seen := 0, inProgress := true }

/-- `Minesweeper.safeGet`. -/
def msSafeGet (g : MSGame) (p : Pos) : Option Char :=
  if p.1 < 0 ∨ p.1 ≥ g.rows ∨ p.2 < 0 ∨ p.2 ≥ g.cols then none
  else some ((g.board.getD p.1.toNat []).getD p.2.toNat '?')

/-- Write a character into a board cell (in-bounds at all call sites). -/
def setCell (b : List (List Char)) (p : Pos) (c : Char) : List (List Char) :=
  b.set p.1.toNat ((b.getD p.1.toNat []).set p.2.toNat c)

/-- `Minesweeper.countMines`: adjacent mine-location count (no bounds
check, matching the source). -/
def countMines (g : MSGame) (p : Pos) : Nat :=
  ((neighborsRC p.1 p.2).filter (fun q => decide (q ∈ g.mineLocations))).length

/-- `Minesweeper.getAdjacentSquares`: adjacent still-unrevealed squares. -/
def adjacentUnknowns (g : MSGame) (p : Pos) : List Pos :=
  (neighborsRC p.1 p.2).filter (fun q => msSafeGet g q == some '?')

/-- `str(curCount)` for a nonzero adjacent count. -/
def digitChar (c : Nat) : Char := Char.ofNat ('0'.toNat + c)

/-- `Minesweeper.isWon`. -/
def isWon (g : MSGame) : Bool := g.seen == g.rows * g.cols - g.mines

/-- `Minesweeper.revealMinesInBoard` (sans printing): mark the game over and
show every mine on the board. -/
def revealMinesInBoard (g : MSGame) : MSGame :=
  { g with inProgress := false,
           board := g.mineLocations.foldl (fun b p => setCell b p '*') g.board }

/-- `Minesweeper.placeMines`: draws locations from the random oracle
(indexed by a counter) until `mines` distinct non-excluded cells are placed.
`none` when the attempt fuel runs out (models an unbounded unlucky RNG). -/
def placeMinesGo (oracle : Nat → Pos) (exclude : Pos) :
    Nat → Nat → List Pos → Nat → Option (List Pos × Nat)
  | 0, _, locs, k => some (locs, k)
  | _+1, 0, _, _ => none
  | n+1, fuel+1, locs, k =>
    let loc := oracle k
    if exclude ≠ loc ∧ loc ∉ locs then placeMinesGo oracle exclude n fuel (locs ++ [loc]) (k+1)
    else placeMinesGo oracle exclude (n+1) fuel locs (k+1)

/-- The flood-reveal loop of `Minesweeper.revealSquare`: reveal the current
wave, then expand from the zero-adjacent cells. -/
def floodLoop : Nat → MSGame → List Pos → MSGame
  | 0, g, _ => g
  | fuel+1, g, squares =>
    if squares.isEmpty then g else
    let g2 := squares.foldl (fun gg sq =>
      let curCount := countMines gg sq
      { gg with seen := gg.seen + 1,
                board := setCell gg.board sq (if curCount = 0 then ' ' else digitChar curCount) }) g
    let newSquares := squares.foldl (fun acc sq =>
      if msSafeGet g2 sq == some ' ' then SUnion acc (adjacentUnknowns g2 sq) else acc) []
    floodLoop fuel g2 newSquares

/-- `Minesweeper.revealSquare` with `printAfterReveal=False`.  Returns the
updated game and random-oracle counter; `none` models either an
out-of-range coordinate (IndexError) or mine-placement fuel running out. -/
def revealSquare (g : MSGame) (row col : Int) (oracle : Nat → Pos) (k : Nat) :
    Option (MSGame × Nat) :=
  if row < 0 ∨ row ≥ g.rows ∨ col < 0 ∨ col ≥ g.cols then none else
  let fuel := g.rows.toNat * g.cols.toNat + 2
  let placed : Option (MSGame × Nat × Bool) :=
    if g.mineLocations.isEmpty then
      match placeMinesGo oracle (row, col) g.mines.toNat (fuel + g.mines.toNat) [] k with
      | none => none
      | some (locs, k2) => some ({g with mineLocations := locs}, k2, false)
    else if (row, col) ∈ g.mineLocations then some (g, k, true)
    else some (g, k, false)
  match placed with
  | none => none
  | some (_, k2, true) => some (revealMinesInBoard g, k2)
  | some (g1, k2, false) =>
    let g2 := floodLoop fuel g1 [(row, col)]
    if isWon g2 then some (revealMinesInBoard g2, k2) else some (g2, k2)

/-- A Python value, for stating what a Python function returns. -/
inductive PyVal where
  | pybool : Bool → PyVal
  | pyint : Int → PyVal
  | pyfloat : PyFloat → PyVal
deriving Repr, DecidableEq

/-- The `while 1` turn loop of `MinesweeperAI.playGame`, over an abstract
move chooser (the `determineMove` of whatever subclass is running; the
solver never mutates the game outside `reveal`).  The value built at the
`break` is exactly the tuple the Python `return` statement produces. -/
def playGameLoop (moveFn : Int → MSGame → Pos) (oracle : Nat → Pos) :
    Nat → MSGame → Int → Nat → Option (List PyVal)
  | 0, _, _, _ => none
  | fuel+1, g, moves, k =>
    let mv := moveFn moves g
    match revealSquare g mv.1 mv.2 oracle k with
    | none => none
    | some (g2, k2) =>
      let moves2 := moves + 1
      if g2.inProgress then playGameLoop moveFn oracle fuel g2 moves2 k2
      else some [PyVal.pybool (isWon g2), PyVal.pyint moves2]

/-- `MinesweeperAI.playGame`: reset the game with the given config, play
until the game ends, and return the tuple of the final `return`. -/
def playGame (cfg : Option (Int × Int × Int)) (g0 : MSGame) (moveFn : Int → MSGame → Pos)
    (oracle : Nat → Pos) (fuel : Nat) : Option (List PyVal) :=
  playGameLoop moveFn oracle fuel (msReset g0 cfg) 0 0

/-- `MinesweeperSolver.nextGame`: reset the solver state and the game. -/
def nextGame (gm : MSGame) (cfg : Option (Int × Int × Int)) : Dyn × MSGame :=
  (initDyn, msReset gm cfg)

/-- The invariant `mines ∩ safeUnrevealed = emptyset`. -/
def DisjointMS (d : Dyn) : Prop := ∀ p, p ∈ d.mines → p ∉ d.safeUnrevealed

/-- Solver states reachable within a game: the fresh state, then any
interleaving of game reveals (which change only the solver's view of the
board), `analyzeBoard` calls that return normally, and `determineMove`
calls that return a move. -/
inductive Reachable : GameCtx → Dyn → Prop
  | init (g : GameCtx) : Reachable g initDyn
  | reveal (g g' : GameCtx) (d : Dyn) : Reachable g d → Reachable g' d
  | analyze (g : GameCtx) (d d' : Dyn) :
      Reachable g d → analyzeBoard g d = some d' → Reachable g d'
  | move (g : GameCtx) (d : Dyn) (r : Nat) (dm : Dyn × Pos) :
      Reachable g d → determineMove g d r = some dm → Reachable g dm.1

/-- Bookkeeping invariant of `markSafeAndMines`: every square in the
`newMarks` set has been marked (it is in `mines` or `safeUnrevealed`). -/
def NMSub (d : Dyn) (nm : List Pos) : Prop := ∀ p ∈ nm, p ∈ d.mines ∨ p ∈ d.safeUnrevealed

/-- Well-formedness of the `newMarks` set: duplicate-free and on-board. -/
def NMWf (g : GameCtx) (nm : List Pos) : Prop := nm.Nodup ∧ ∀ p ∈ nm, p ∈ allCells g

/-- The step relation describing what one marking step of `markSafeAndMines`
(an `analyzeNumSquare` call, or a composition of such calls) does to the
pair (solver state, `newMarks`): `newMarks` only grows, and when it does not
grow the coordinate sets are unchanged; disjointness, the `newMarks`
invariants, and the values of all non-`'?'` squares are preserved; `mines`
and `safeUnrevealed` only grow. -/
def Ste (g : GameCtx) (a b : Dyn × List Pos) : Prop :=
  a.2.length ≤ b.2.length ∧
  (NMSub a.1 a.2 → b.2.length = a.2.length →
    b.1.mines = a.1.mines ∧ b.1.safeUnrevealed = a.1.safeUnrevealed) ∧
  (DisjointMS a.1 → DisjointMS b.1) ∧
  (NMSub a.1 a.2 → NMSub b.1 b.2) ∧
  (∀ q c, solverSafeGet g a.1 q = some c → c ≠ '?' → solverSafeGet g b.1 q = some c) ∧
  (∀ p, p ∈ a.1.mines → p ∈ b.1.mines) ∧
  (∀ p, p ∈ a.1.safeUnrevealed → p ∈ b.1.safeUnrevealed) ∧
  (NMWf g a.2 → NMWf g b.2)

/-- An adjacent numbered square exists (so the square is on some frontier's
boundary and can never be a non-frontier unknown). -/
def ADJD (g : GameCtx) (d : Dyn) (u : Pos) : Prop :=
  ∃ q ∈ neighborsRC u.1 u.2, ∃ c, solverSafeGet g d q = some c ∧ c.isDigit = true

/-- Pairwise disjointness of the frontiers' unknown lists. -/
def FrSep (fs : List Frontier) : Prop :=
  List.Pairwise (fun f1 f2 => ∀ u ∈ f2.unknowns, u ∉ f1.unknowns) fs

/-- Correspondence between a frontier and its re-filtered version after a
round of `analyzeNumSquaresInOrderFromNewMarks`. -/
def FrRel (f f2 : Frontier) : Prop :=
  (∀ u ∈ f2.unknowns, u ∈ f.unknowns) ∧ (f.unknowns.Nodup → f2.unknowns.Nodup)

/-- The body of the per-frontier fold inside
`analyzeNumSquaresInOrderFromNewMarks`. -/
def roundStep (g : GameCtx) (acc : Dyn × List Frontier × List Pos) (f : Frontier) :
    Dyn × List Frontier × List Pos :=
  let swept := f.newMarks.foldl (fun (a : Dyn × List Pos) mn =>
    sweepSquares g (sortByDistFrom f.nums mn) a) (acc.1, acc.2.2)
  (swept.1,
   acc.2.1 ++
     [{f with unknowns :=
         f.unknowns.filter (fun u => solverSafeGet g swept.1 u == some '?')}],
   swept.2)

/-- The body of the per-seed fold inside `buildFrontiers`. -/
def buildStep (g : GameCtx) (d : Dyn) (nm : List Pos) (acc : List Frontier × List Pos)
    (ij : Pos) : List Frontier × List Pos :=
  if ij ∈ acc.2 then acc else
  let seen := SInsert ij acc.2
  let unknowns0 := surroundPos g d ij.1 ij.2 (fun p v => (v == '?') && decide (p ∉ seen))
  let seen := SUnion seen unknowns0
  let fuel := g.rows.toNat * g.cols.toNat + 2
  let loopRes := buildFrontierLoop g d fuel seen [ij] unknowns0 unknowns0
  let fNums := loopRes.2.1
  let fUnk := loopRes.2.2
  let fMarks := nm.filter (fun mn =>
    ¬ (surround g d mn.1 mn.2 (fun p v => v.isDigit && decide (p ∈ fNums))).isEmpty)
  (acc.1 ++ [⟨fNums, fUnk, fMarks⟩], loopRes.1)

/-- The numbered squares scanned by `markSafeAndMines`. -/
def msNumbered (g : GameCtx) (d0 : Dyn) : List Pos :=
  (allCells g).filter (fun p => (getCh g d0 p).isDigit)

/-- The body of the first initial pass of `markSafeAndMines`. -/
def pass1Step (g : GameCtx) (acc : Dyn × List Pos × List Pos) (ij : Pos) :
    Dyn × List Pos × List Pos :=
  let r := analyzeNumSquare g acc.1 ij.1 ij.2 acc.2.1
  (r.1, r.2.1, if r.2.2 then SInsert ij acc.2.2 else acc.2.2)

/-- The body of the second (reversed, skipping complete squares) initial
pass of `markSafeAndMines`. -/
def pass2Step (g : GameCtx) (acc : Dyn × List Pos × List Pos) (ij : Pos) :
    Dyn × List Pos × List Pos :=
  if ij ∈ acc.2.2 then acc else pass1Step g acc ij

/-- The two initial `analyzeNumSquare` passes of `markSafeAndMines`
(state, `newMarks`, complete squares). -/
def msPass (g : GameCtx) (d0 : Dyn) : Dyn × List Pos × List Pos :=
  let pass1 := (msNumbered g d0).foldl (fun (acc : Dyn × List Pos × List Pos) ij =>
    let r := analyzeNumSquare g acc.1 ij.1 ij.2 acc.2.1
    (r.1, r.2.1, if r.2.2 then SInsert ij acc.2.2 else acc.2.2)) (d0, [], [])
  (msNumbered g d0).reverse.foldl (fun (acc : Dyn × List Pos × List Pos) ij =>
    if ij ∈ acc.2.2 then acc else
    let r := analyzeNumSquare g acc.1 ij.1 ij.2 acc.2.1
    (r.1, r.2.1, if r.2.2 then SInsert ij acc.2.2 else acc.2.2)) pass1

/-- The frontiers built by `markSafeAndMines`. -/
def msFrontiers (g : GameCtx) (d0 : Dyn) : List Frontier × List Pos :=
  buildFrontiers g (msPass g d0).1 (msNumbered g d0) (msPass g d0).2.2 (msPass g d0).2.1

/-- The first fixpoint loop of `markSafeAndMines`. -/
def msLoop1 (g : GameCtx) (d0 : Dyn) : Dyn × List Frontier × List Pos :=
  fixLoop g (g.rows.toNat * g.cols.toNat + 2) (msPass g d0).1 (msFrontiers g d0).1
    (msPass g d0).2.1

/-- The state after the split-up check preceding enumeration. -/
def msD3 (g : GameCtx) (d0 : Dyn) : Dyn :=
  (checkFrontiersWereSplitUp g (msLoop1 g d0).1 (msLoop1 g d0).2.1).1

/-- The enumeration phase of `markSafeAndMines`. -/
def msEnum (g : GameCtx) (d0 : Dyn) : ERes :=
  processFrontiers g (msLoop1 g d0).2.1 (msD3 g d0) []

/-- The second fixpoint loop of `markSafeAndMines`. -/
def msLoop2 (g : GameCtx) (d4 : Dyn) (nm4 : List Pos) (fs : List Frontier) :
    Dyn × List Frontier × List Pos :=
  fixLoop g (g.rows.toNat * g.cols.toNat + 2) d4 fs nm4

/-- The totals-clamping chain after the second fixpoint loop. -/
def msD9 (g : GameCtx) (d4 : Dyn) (nm4 : List Pos) (fs : List Frontier) : Dyn :=
  let d5 := (msLoop2 g d4 nm4 fs).1
  let minesAdded : Int := (d5.mines.filter (fun p => p ∉ d4.mines)).length
  let d6 := {d5 with
    maxMineTotal := max 0 (d5.maxMineTotal - minesAdded),
    minMineTotal := max 0 (d5.minMineTotal - minesAdded),
    expectedMineTotal := pfMax (pfOfInt 0) (pfSub d5.expectedMineTotal (pfOfInt minesAdded))}
  let d7 := {d6 with
    maxMineTotal := min d6.maxMineTotal (g.gameMines - d6.mines.length),
    minMineTotal := max d6.minMineTotal
      (g.gameMines - d6.mines.length - (getNonFrontierUnknowns g d6).length)}
  let d8 := {d7 with expectedMineTotal := pfMax (pfOfInt d7.minMineTotal) d7.expectedMineTotal}
  {d8 with expectedMineTotal := pfMin (pfOfInt d8.maxMineTotal) d8.expectedMineTotal}

/-- The state after the two final checks of `markSafeAndMines`. -/
def msD11 (g : GameCtx) (d4 : Dyn) (nm4 : List Pos) (fs : List Frontier) : Dyn :=
  (checkFrontiersWereSplitUp g (checkFrontierMineRanges g (msD9 g d4 nm4 fs)).1
    (msLoop2 g d4 nm4 fs).2.1).1

/-- The post-enumeration tail of `markSafeAndMines`: the second fixpoint
loop, the totals clamping, the two final checks and the `squaresByProb`
pruning. -/
def msPost (g : GameCtx) (d4 : Dyn) (nm4 : List Pos) (fs : List Frontier) : Dyn :=
  let fuel := g.rows.toNat * g.cols.toNat + 2
  let oldMines := d4.mines
  let loop2 := fixLoop g fuel d4 fs nm4
  let d5 := loop2.1
  let minesAdded : Int := (d5.mines.filter (fun p => p ∉ oldMines)).length
  let d6 := {d5 with
    maxMineTotal := max 0 (d5.maxMineTotal - minesAdded),
    minMineTotal := max 0 (d5.minMineTotal - minesAdded),
    expectedMineTotal := pfMax (pfOfInt 0) (pfSub d5.expectedMineTotal (pfOfInt minesAdded))}
  let d7 := {d6 with
    maxMineTotal := min d6.maxMineTotal (g.gameMines - d6.mines.length),
    minMineTotal := max d6.minMineTotal
      (g.gameMines - d6.mines.length - (getNonFrontierUnknowns g d6).length)}
  let d8 := {d7 with expectedMineTotal := pfMax (pfOfInt d7.minMineTotal) d7.expectedMineTotal}
  let d9 := {d8 with expectedMineTotal := pfMin (pfOfInt d8.maxMineTotal) d8.expectedMineTotal}
  let d10 := (checkFrontierMineRanges g d9).1
  let d11 := (checkFrontiersWereSplitUp g d10 loop2.2.1).1
  {d11 with squaresByProb := d11.squaresByProb.filterMap (fun kv =>
    let kept := kv.2.filter (fun sq => decide (sq ∉ d11.mines))
    if kept.isEmpty then none else some (kv.1, kept))}

section Fixtures

/-- A 2x6 board state containing a propagation contradiction: the square
`(0, 0)` shows `1` but has two adjacent solver-marked mines, so its
remaining-mine count is `-1`; the square `(0, 5)` shows `1` with one
adjacent marked mine, so its unknown neighbor `(0, 4)` is marked safe. -/
def gC1 : GameCtx := ⟨2, 6, 5, [['1','?','4','4','?','1'], ['?','?','4','4','4','?']]⟩

/-- Solver state for `gC1`: three squares already marked as mines. -/
def dC1 : Dyn := ⟨[(1,0),(1,1),(1,5)], [], [], pfOfInt 0, 0, 0⟩

/-- A 3x8 board with two frontiers (a shared-unknown pair of `1`s and a
lone `1`) and three non-frontier unknowns in the last column; 2 mines. -/
def gC3 : GameCtx := ⟨3, 8, 2,
  [['?','?','?','?','?','?','?','?'],
   ['?','1','1','?','?','1','?','?'],
   ['?','?','?','?','?','?','?','?']]⟩

/-- Result of the first `analyzeBoard` on `gC3` from the fresh state. -/
def dC3a : Dyn := ⟨[], [(0,7),(1,7),(2,7)],
  [(pfRatio 3 13, [(0,0),(1,0),(2,0),(0,3),(1,3),(2,3)]),
   (pfRatio 1 13, [(0,1),(0,2),(2,1),(2,2)]),
   (pfRatio 1 8, [(0,4),(0,5),(0,6),(1,4),(1,6),(2,4),(2,5),(2,6)])],
  ⟨2, 1⟩, 2, 2⟩

/-- Result of the second `analyzeBoard` on `gC3`. -/
def dC3b : Dyn := ⟨[], [(0,7),(1,7),(2,7)], [], pfOfInt 0, 0, 0⟩

/-- A 2x2 board whose numbered square `(0, 1)` has remaining-mine count 0
(its `1` is accounted for by the marked mine at `(0, 0)`) while the unknown
`(1, 0)` is still adjacent to it. -/
def gC4 : GameCtx := ⟨2, 2, 1, [['?','1'],['?',' ']]⟩

/-- Solver state for `gC4`: `(0, 0)` marked as a mine. -/
def dC4 : Dyn := ⟨[(0,0)], [], [], pfOfInt 0, 0, 0⟩

/-- The frontier of `gC4`: the numbered square `(0, 1)` and its adjacent
unknown `(1, 0)`. -/
def fC4 : Frontier := ⟨[(0,1)], [(1,0)], []⟩

/-- A 2x2 board where every cell is revealed or solver-marked: three `1`s
and one solver-marked mine at `(1, 1)`. -/
def gC8 : GameCtx := ⟨2, 2, 1, [['1','1'],['1','?']]⟩

/-- Solver state for `gC8`: `(1, 1)` marked as a mine, nothing else. -/
def dC8 : Dyn := ⟨[(1,1)], [], [], pfOfInt 0, 0, 0⟩

/-- A 1x3 one-constraint board for exercising the tally loop: `(0, 0)`
shows `1` with the single adjacent unknown `(0, 1)`. -/
def gC10 : GameCtx := ⟨1, 3, 1, [['1','?','?']]⟩

/-- A frontier for `gC10` whose unknown list also contains `(0, 2)`, which
no surviving solution marks as a mine. -/
def fC10 : Frontier := ⟨[(0,0)], [(0,1),(0,2)], []⟩

/-- An uninitialized game object (`rows = cols = None` modeled as 0). -/
def mg0 : MSGame := ⟨0, 0, 0, [], [], 0, false⟩

/-- A game freshly constructed with the default configuration. -/
def mgDefault : MSGame := msReset mg0 none

/-- The move chooser that always picks `(0, 0)`. -/
def moveFn0 : Int → MSGame → Pos := fun _ _ => (0, 0)

/-- The mine-placement oracle that always offers `(0, 1)`. -/
def oracle0 : Nat → Pos := fun _ => (0, 1)

/-- A 1x2 board with both cells unrevealed, for the reconciler witness. -/
def gC7 : GameCtx := ⟨1, 2, 1, [['?','?']]⟩

/-- Solver state for `gC7` with frontier totals `min = 1`, `max = 5`. -/
def dC7 : Dyn := ⟨[], [], [], pfOfInt 0, 1, 5⟩

/-- A fully revealed 1x1 board with no mines. -/
def gFix : GameCtx := ⟨1, 1, 0, [[' ']]⟩

end Fixtures

/-! ## Basic lemmas about the set operations and neighborhoods -/

theorem mem_SInsert {a x : Pos} {l : List Pos} : a ∈ SInsert x l ↔ a = x ∨ a ∈ l := by
  simp only [SInsert]
  split
  case isTrue h =>
    constructor
    · exact Or.inr
    · rintro (rfl | hm)
      · exact h
      · exact hm
  case isFalse h =>
    simp [List.mem_append, or_comm]

theorem SUnion_cons {l : List Pos} {x : Pos} {xs : List Pos} :
    SUnion l (x :: xs) = SUnion (SInsert x l) xs := rfl

theorem mem_SUnion {a : Pos} {l xs : List Pos} : a ∈ SUnion l xs ↔ a ∈ l ∨ a ∈ xs := by
  induction xs generalizing l with
  | nil => simp [SUnion]
  | cons x xs ih =>
    rw [SUnion_cons, ih, mem_SInsert]
    simp only [List.mem_cons]
    tauto

theorem cheb_of_mem_neighborsRC {i j : Int} {p : Pos} (h : p ∈ neighborsRC i j) :
    chebyshev (i, j) p = 1 := by
  simp only [neighborsRC, List.mem_cons, List.mem_singleton, List.not_mem_nil, or_false] at h
  rcases h with rfl | rfl | rfl | rfl | rfl | rfl | rfl | rfl <;>
    simp only [chebyshev] <;> omega

theorem mem_surroundPos {g : GameCtx} {d : Dyn} {i j : Int} {c : Pos → Char → Bool} {p : Pos} :
    p ∈ surroundPos g d i j c ↔
      p ∈ neighborsRC i j ∧ ∃ v, solverSafeGet g d p = some v ∧ c p v = true := by
  simp only [surroundPos, surround, List.mem_map, List.mem_filterMap]
  constructor
  · rintro ⟨⟨q, v⟩, ⟨a, ha, hf⟩, rfl⟩
    cases hsg : solverSafeGet g d a with
    | none => rw [hsg] at hf; simp at hf
    | some w =>
      rw [hsg] at hf
      dsimp only at hf
      by_cases hc : c a w = true
      · rw [if_pos hc] at hf
        simp only [Option.some.injEq, Prod.mk.injEq] at hf
        obtain ⟨rfl, rfl⟩ := hf
        exact ⟨ha, w, hsg, hc⟩
      · rw [if_neg hc] at hf
        cases hf
  · rintro ⟨hmem, v, hsg, hc⟩
    exact ⟨(p, v), ⟨p, hmem, by rw [hsg]; simp [hc]⟩, rfl⟩

theorem cheb_of_mem_surroundPos {g : GameCtx} {d : Dyn} {i j : Int} {c : Pos → Char → Bool}
    {p : Pos} (h : p ∈ surroundPos g d i j c) : chebyshev (i, j) p = 1 :=
  cheb_of_mem_neighborsRC (mem_surroundPos.mp h).1

theorem notMem_nonAdjacentSafes {g : GameCtx} {d : Dyn} {i j : Int} {u : Pos}
    (hu : u ∈ surroundPos g d i j isUnknownP) : u ∉ nonAdjacentSafes g d i j := by
  intro hmem
  simp only [nonAdjacentSafes, List.mem_filter, Bool.and_eq_true, decide_eq_true_eq] at hmem
  have h1 := cheb_of_mem_surroundPos hu
  omega

/-! ## A case description of `analyzeNumSquare` -/

theorem analyzeNumSquare_spec (g : GameCtx) (d : Dyn) (i j : Int) (nm : List Pos)
    (hne : (surroundPos g d i j isUnknownP).isEmpty = false) :
    analyzeNumSquare g d i j nm =
      (let U := surroundPos g d i j isUnknownP
       let rm : Int := numberOf (getCh g d (i, j)) - (surroundPos g d i j isMineP).length
       let p1 : Dyn × List Pos :=
         if rm = g.gameMines - d.mines.length then
           ({d with safeUnrevealed := SUnion d.safeUnrevealed (nonAdjacentSafes g d i j)},
            SUnion nm (nonAdjacentSafes g d i j))
         else (d, nm)
       if (U.length : Int) - rm = 0 then
         ({p1.1 with mines := SUnion p1.1.mines U}, SUnion p1.2 U, true)
       else if rm = 0 then
         ({p1.1 with safeUnrevealed := SUnion p1.1.safeUnrevealed U}, SUnion p1.2 U, true)
       else (p1.1, p1.2, false)) := by
  unfold analyzeNumSquare
  simp only [hne, Bool.false_eq_true, if_false]

/-! ## C6: the three-way case split of `analyzeNumSquare` -/

/-- C6.  For a numbered square `(i, j)` with adjacent unknown set `U`,
adjacent known-mine count `K` and number `n`, with `r = n - K`:
`analyzeNumSquare` puts every cell of `U` into `mines` when `r = |U|`,
puts every cell of `U` into `safeUnrevealed` when `r = 0`, and otherwise
leaves every cell of `U` unmarked (its membership in `mines` and
`safeUnrevealed` is unchanged). -/
theorem C6_local_marking (g : GameCtx) (d : Dyn) (i j : Int) (nm : List Pos)
    (hdig : (getCh g d (i, j)).isDigit = true) :
    (numberOf (getCh g d (i, j)) - ((surroundPos g d i j isMineP).length : Int) =
        ((surroundPos g d i j isUnknownP).length : Int) →
      ∀ u ∈ surroundPos g d i j isUnknownP,
        u ∈ (analyzeNumSquare g d i j nm).1.mines ∧
        (u ∈ (analyzeNumSquare g d i j nm).1.safeUnrevealed ↔ u ∈ d.safeUnrevealed)) ∧
    (numberOf (getCh g d (i, j)) - ((surroundPos g d i j isMineP).length : Int) = 0 →
      ∀ u ∈ surroundPos g d i j isUnknownP,
        u ∈ (analyzeNumSquare g d i j nm).1.safeUnrevealed ∧
        (u ∈ (analyzeNumSquare g d i j nm).1.mines ↔ u ∈ d.mines)) ∧
    (numberOf (getCh g d (i, j)) - ((surroundPos g d i j isMineP).length : Int) ≠ 0 →
      numberOf (getCh g d (i, j)) - ((surroundPos g d i j isMineP).length : Int) ≠
        ((surroundPos g d i j isUnknownP).length : Int) →
      ∀ u ∈ surroundPos g d i j isUnknownP,
        (u ∈ (analyzeNumSquare g d i j nm).1.mines ↔ u ∈ d.mines) ∧
        (u ∈ (analyzeNumSquare g d i j nm).1.safeUnrevealed ↔ u ∈ d.safeUnrevealed)) := by
  refine ⟨?_, ?_, ?_⟩
  · intro h u hu
    have hne : (surroundPos g d i j isUnknownP).isEmpty = false := by
      simpa [List.isEmpty_iff] using List.ne_nil_of_mem hu
    rw [analyzeNumSquare_spec g d i j nm hne]
    dsimp only
    have hnas := notMem_nonAdjacentSafes (g := g) (d := d) (i := i) (j := j) (u := u) hu
    split_ifs with hg h1 <;>
      simp_all [mem_SUnion]
  · intro h u hu
    have hne : (surroundPos g d i j isUnknownP).isEmpty = false := by
      simpa [List.isEmpty_iff] using List.ne_nil_of_mem hu
    rw [analyzeNumSquare_spec g d i j nm hne]
    dsimp only
    have hnas := notMem_nonAdjacentSafes (g := g) (d := d) (i := i) (j := j) (u := u) hu
    have hlen : (0 : Int) < ((surroundPos g d i j isUnknownP).length : Int) := by
      have := List.length_pos.mpr (List.ne_nil_of_mem hu)
      omega
    split_ifs with hg h1 <;>
      simp_all [mem_SUnion]
  · intro h h2 u hu
    have hne : (surroundPos g d i j isUnknownP).isEmpty = false := by
      simpa [List.isEmpty_iff] using List.ne_nil_of_mem hu
    rw [analyzeNumSquare_spec g d i j nm hne]
    dsimp only
    have hnas := notMem_nonAdjacentSafes (g := g) (d := d) (i := i) (j := j) (u := u) hu
    split_ifs with hg h1 h3 <;>
      simp_all [mem_SUnion] <;> omega

/-- Witness for C6 at the square `(0, 5)` of the `gC1` board, whose
remaining-mine count is 0: its unknown neighbor `(0, 4)` is marked safe. -/
theorem C6_local_marking_witness :
    (getCh gC1 dC1 ((0 : Int), (5 : Int))).isDigit = true ∧
    numberOf (getCh gC1 dC1 (0, 5)) - ((surroundPos gC1 dC1 0 5 isMineP).length : Int) = 0 ∧
    ((0 : Int), (4 : Int)) ∈ surroundPos gC1 dC1 0 5 isUnknownP ∧
    ((0 : Int), (4 : Int)) ∈ (analyzeNumSquare gC1 dC1 0 5 []).1.safeUnrevealed := by
  have h := C6_local_marking gC1 dC1 0 5 [] (by decide)
  exact ⟨by decide, by decide, by decide, (h.2.1 (by decide) (0, 4) (by decide)).1⟩

/-! ## C7: the global reconciler's cases -/

/-- C7.  When the set `X` of non-frontier unknowns is nonempty, with
`G = game.mines - |mines|`: `checkFrontierMineRanges` marks every element of
`X` as a mine when `G - maxMineTotal = |X|`, otherwise marks every element
of `X` as safe when `G = minMineTotal`, and otherwise changes nothing. -/
theorem C7_reconciler_cases (g : GameCtx) (d : Dyn)
    (hX : getNonFrontierUnknowns g d ≠ []) :
    (g.gameMines - d.mines.length - d.maxMineTotal =
        ((getNonFrontierUnknowns g d).length : Int) →
      (checkFrontierMineRanges g d).1 =
        {d with mines := SUnion d.mines (getNonFrontierUnknowns g d)}) ∧
    (g.gameMines - d.mines.length - d.maxMineTotal ≠
        ((getNonFrontierUnknowns g d).length : Int) →
      g.gameMines - d.mines.length = d.minMineTotal →
      (checkFrontierMineRanges g d).1 =
        {d with safeUnrevealed := SUnion d.safeUnrevealed (getNonFrontierUnknowns g d)}) ∧
    (g.gameMines - d.mines.length - d.maxMineTotal ≠
        ((getNonFrontierUnknowns g d).length : Int) →
      g.gameMines - d.mines.length ≠ d.minMineTotal →
      (checkFrontierMineRanges g d).1 = d) := by
  have hne : (getNonFrontierUnknowns g d).isEmpty = false := by
    simpa [List.isEmpty_iff] using hX
  refine ⟨?_, ?_, ?_⟩ <;> intro h1 <;>
    simp only [checkFrontierMineRanges, hne, Bool.false_eq_true, if_false] <;>
    first
      | (rw [if_pos h1])
      | (intro h2
         rw [if_neg h1]
         first
           | rw [if_pos h2]
           | rw [if_neg h2])

/-- Witness for C7 on the all-unknown 1x2 board `gC7` with totals
`min = 1`, `max = 5`: `G = 1 = minMineTotal`, so both cells become safe. -/
theorem C7_reconciler_cases_witness :
    getNonFrontierUnknowns gC7 dC7 ≠ [] ∧
    (checkFrontierMineRanges gC7 dC7).1.safeUnrevealed = [(0, 0), (0, 1)] := by
  have h := C7_reconciler_cases gC7 dC7 (by decide)
  refine ⟨by decide, ?_⟩
  rw [h.2.1 (by decide) (by decide)]
  decide

/-! ## C1: contradictions in local propagation are not surfaced -/

/-- Helper: when neither marking condition holds, `analyzeNumSquare` reports
the square as incomplete, leaves `mines` unchanged, and leaves the
`safeUnrevealed`-membership of every adjacent unknown unchanged. -/
theorem analyzeNumSquare_incomplete (g : GameCtx) (d : Dyn) (i j : Int) (nm : List Pos)
    (hU : surroundPos g d i j isUnknownP ≠ [])
    (h3 : ((surroundPos g d i j isUnknownP).length : Int) -
      (numberOf (getCh g d (i, j)) - ((surroundPos g d i j isMineP).length : Int)) ≠ 0)
    (h4 : numberOf (getCh g d (i, j)) - ((surroundPos g d i j isMineP).length : Int) ≠ 0) :
    (analyzeNumSquare g d i j nm).2.2 = false ∧
    (analyzeNumSquare g d i j nm).1.mines = d.mines ∧
    ∀ u ∈ surroundPos g d i j isUnknownP,
      (u ∈ (analyzeNumSquare g d i j nm).1.safeUnrevealed ↔ u ∈ d.safeUnrevealed) := by
  have hne : (surroundPos g d i j isUnknownP).isEmpty = false := by
    simpa [List.isEmpty_iff] using hU
  rw [analyzeNumSquare_spec g d i j nm hne]
  dsimp only
  rw [if_neg h3, if_neg h4]
  split_ifs with hg
  · refine ⟨rfl, rfl, ?_⟩
    intro u hu
    have hnas := notMem_nonAdjacentSafes (g := g) (d := d) (i := i) (j := j) (u := u) hu
    simp [mem_SUnion, hnas]
  · exact ⟨rfl, rfl, fun u _ => Iff.rfl⟩

/-- C1 amended.  A propagation contradiction (`r < 0` or `r > |U|` at a
numbered square with adjacent unknowns `U`) is silently ignored:
`analyzeNumSquare` just reports the square as incomplete (`False`), marks no
mine, and leaves the safe-set membership of every cell of `U` unchanged —
no `BoardContradiction`-style failure exists in the code. -/
theorem C1_contradiction_ignored (g : GameCtx) (d : Dyn) (i j : Int) (nm : List Pos)
    (hdig : (getCh g d (i, j)).isDigit = true)
    (hU : surroundPos g d i j isUnknownP ≠ [])
    (hcontra : numberOf (getCh g d (i, j)) - ((surroundPos g d i j isMineP).length : Int) < 0 ∨
      ((surroundPos g d i j isUnknownP).length : Int) <
        numberOf (getCh g d (i, j)) - ((surroundPos g d i j isMineP).length : Int)) :
    (analyzeNumSquare g d i j nm).2.2 = false ∧
    (analyzeNumSquare g d i j nm).1.mines = d.mines ∧
    ∀ u ∈ surroundPos g d i j isUnknownP,
      (u ∈ (analyzeNumSquare g d i j nm).1.safeUnrevealed ↔ u ∈ d.safeUnrevealed) := by
  refine analyzeNumSquare_incomplete g d i j nm hU ?_ ?_ <;> omega

/-- Witness for the amended C1 at the contradictory square `(0, 0)` of
`gC1` (number 1, two adjacent marked mines, one adjacent unknown). -/
theorem C1_contradiction_ignored_witness :
    (getCh gC1 dC1 ((0 : Int), (0 : Int))).isDigit = true ∧
    numberOf (getCh gC1 dC1 (0, 0)) - ((surroundPos gC1 dC1 0 0 isMineP).length : Int) = -1 ∧
    surroundPos gC1 dC1 0 0 isUnknownP ≠ [] ∧
    (analyzeNumSquare gC1 dC1 0 0 []).2.2 = false ∧
    (analyzeNumSquare gC1 dC1 0 0 []).1.mines = dC1.mines := by
  have h := C1_contradiction_ignored gC1 dC1 0 0 [] (by decide) (by decide)
    (Or.inl (by decide))
  exact ⟨by decide, by decide, by decide, h.1, h.2.1⟩

/-- C1 counterexample.  In the solver state `(gC1, dC1)` the numbered square
`(0, 0)` has remaining-mine count `-1 < 0`, yet `analyzeBoard` returns
normally (it even marks a safe square elsewhere), contradicting the claim
that a `BoardContradiction` terminal failure is surfaced. -/
theorem C1_counterexample :
    (getCh gC1 dC1 ((0 : Int), (0 : Int))).isDigit = true ∧
    numberOf (getCh gC1 dC1 (0, 0)) - ((surroundPos gC1 dC1 0 0 isMineP).length : Int) = -1 ∧
    surroundPos gC1 dC1 0 0 isUnknownP ≠ [] ∧
    analyzeBoard gC1 dC1 = some ⟨[(1,0),(1,1),(1,5)], [(0,4)], [], pfOfInt 0, 0, 0⟩ := by
  refine ⟨by decide, by decide, by decide, by decide⟩

/-! ## C4: per-constraint seeding and `r = 0` squares -/

/-- Helper: a numbered square with remaining-mine count 0 has no entry in
`numSquareMinesRemaining`. -/
theorem find_remainingList_eq_none (g : GameCtx) (d : Dyn) (nums : List Pos) (mn : Pos)
    (hr : numberOf (getCh g d mn) - ((surroundCount g d mn.1 mn.2 isMineP) : Int) = 0) :
    (remainingList g d nums).find? (fun kv => kv.1 == mn) = none := by
  induction nums with
  | nil => rfl
  | cons q rest ih =>
    by_cases hq : (numberOf (getCh g d q) - ((surroundCount g d q.1 q.2 isMineP) : Int)) = 0
    · have : remainingList g d (q :: rest) = remainingList g d rest := by
        simp [remainingList, List.filterMap_cons, hq]
      rw [this]
      exact ih
    · have : remainingList g d (q :: rest) =
          (q, numberOf (getCh g d q) - ((surroundCount g d q.1 q.2 isMineP) : Int)) ::
            remainingList g d rest := by
        simp [remainingList, List.filterMap_cons, hq]
      rw [this, List.find?_cons]
      have hqm : (q == mn) = false := by
        rcases Bool.eq_false_or_eq_true (q == mn) with hb | hb
        · exfalso
          have heq : q = mn := by simpa using hb
          rw [heq] at hq
          exact hq hr
        · exact hb
      simp only [hqm]
      exact ih

/-- Helper: seeding fails (`KeyError`) as soon as the iteration reaches a
numbered square missing from `numSquareMinesRemaining`. -/
theorem seedSolutions_eq_none (g : GameCtx) (d : Dyn) (us : List Pos)
    (remaining : List (Pos × Int)) (mn : Pos) :
    ∀ iter : List Pos, mn ∈ iter →
      remaining.find? (fun kv => kv.1 == mn) = none →
      seedSolutions g d us remaining iter = none := by
  intro iter
  induction iter with
  | nil => intro h; cases h
  | cons q rest ih =>
    intro hmem hfind
    rcases List.mem_cons.mp hmem with rfl | hmem2
    · simp only [seedSolutions, hfind]
    · simp only [seedSolutions]
      cases hf : remaining.find? (fun kv => kv.1 == q) with
      | none => rfl
      | some kv =>
        dsimp only
        cases hs : seedOne g d us q.1 q.2 kv.2 with
        | none => rfl
        | some sols =>
          dsimp only
          rw [ih hmem2 hfind]

/-- C4 amended.  A numbered square whose remaining-mine count is 0 — whether
or not it still has adjacent unknowns — is omitted from
`numSquareMinesRemaining`, and when the seeding loop reaches it the lookup
fails, so the whole frontier's seeding (and `markSafeAndMines` with it)
aborts with a `KeyError` instead of contributing the partial solution
`(0, mask(P))`.  (Squares with no adjacent unknowns and a nonzero count are
not skipped either: they contribute an empty solution set.) -/
theorem C4_r0_seeding_fails (g : GameCtx) (d : Dyn) (f : Frontier) (mn : Pos)
    (hmem : mn ∈ f.nums)
    (hr : numberOf (getCh g d mn) - ((surroundCount g d mn.1 mn.2 isMineP) : Int) = 0) :
    seedSolutions g d f.unknowns (remainingList g d f.nums) f.nums = none ∧
    ∀ nm : List Pos, processFrontier g f d nm = ERes.crash := by
  have hnone := seedSolutions_eq_none g d f.unknowns (remainingList g d f.nums) mn
    f.nums hmem (find_remainingList_eq_none g d f.nums mn hr)
  refine ⟨hnone, fun nm => ?_⟩
  simp only [processFrontier, hnone]

/-- Witness for the amended C4: the `gC4` frontier contains the square
`(0, 1)` with remaining count 0 and an adjacent unknown, and seeding
crashes. -/
theorem C4_r0_seeding_fails_witness :
    ((0 : Int), (1 : Int)) ∈ fC4.nums ∧
    numberOf (getCh gC4 dC4 (0, 1)) - ((surroundCount gC4 dC4 0 1 isMineP) : Int) = 0 ∧
    processFrontier gC4 fC4 dC4 [] = ERes.crash := by
  have h := C4_r0_seeding_fails gC4 dC4 fC4 (0, 1) (by decide) (by decide)
  exact ⟨by decide, by decide, h.2 []⟩

/-- C4 counterexample.  On the `gC4` board the frontier's numbered square
`(0, 1)` has remaining-mine count 0 and the adjacent unknown `(1, 0)`, yet
seeding does not produce the partial solution `(0, mask(P))` — it fails with
a `KeyError` (modeled as `none`), refuting both "contributes exactly the
single partial solution" and "seeding completes without failure". -/
theorem C4_counterexample :
    numberOf (getCh gC4 dC4 ((0 : Int), (1 : Int))) -
      ((surroundCount gC4 dC4 0 1 isMineP) : Int) = 0 ∧
    surroundPos gC4 dC4 0 1 isUnknownP = [(1, 0)] ∧
    seedSolutions gC4 dC4 fC4.unknowns (remainingList gC4 dC4 fC4.nums) fC4.nums = none := by
  refine ⟨by decide, by decide, by decide⟩

/-! ## C5: `nextGame` never surfaces a configuration error -/

/-- C5 amended.  `nextGame` surfaces no `ConfigInvalid` error: `reset`
always starts a fresh in-progress game, installing the config when
`validGameConfig` accepts it (all components nonzero and
`mines < rows * cols`) and silently reusing the previous configuration (or
the 16x16x40 default when the previous one has a falsy component)
otherwise.  The solver-side state is reset to its initial value. -/
theorem C5_reset_never_errors (gm : MSGame) (cfg : Option (Int × Int × Int)) :
    (nextGame gm cfg).1 = initDyn ∧
    (nextGame gm cfg).2.inProgress = true ∧
    (validGameConfig cfg = true →
      ((nextGame gm cfg).2.rows, (nextGame gm cfg).2.cols, (nextGame gm cfg).2.mines) =
        cfg.getD defaultGameConfig) ∧
    (validGameConfig cfg = false →
      ((nextGame gm cfg).2.rows, (nextGame gm cfg).2.cols, (nextGame gm cfg).2.mines) =
        if gm.rows ≠ 0 ∧ gm.cols ≠ 0 ∧ gm.mines ≠ 0 then (gm.rows, gm.cols, gm.mines)
        else defaultGameConfig) := by
  refine ⟨rfl, ?_, ?_, ?_⟩
  · simp only [nextGame, msReset]
  · intro hv
    simp only [nextGame, msReset, hv, if_true]
  · intro hv
    simp only [nextGame, msReset, hv, Bool.false_eq_true, if_false]

/-- Witness for the amended C5 with the out-of-range config `(2, 3, 0)`
against a default-configured game. -/
theorem C5_reset_never_errors_witness :
    validGameConfig (some (2, 3, 0)) = false ∧
    (nextGame mgDefault (some (2, 3, 0))).2.inProgress = true ∧
    ((nextGame mgDefault (some (2, 3, 0))).2.rows,
     (nextGame mgDefault (some (2, 3, 0))).2.cols,
     (nextGame mgDefault (some (2, 3, 0))).2.mines) = (16, 16, 40) := by
  have h := C5_reset_never_errors mgDefault (some (2, 3, 0))
  refine ⟨by decide, h.2.1, ?_⟩
  rw [h.2.2.2 (by decide)]
  decide

/-- C5 counterexample.  The config `(2, 3, 0)` has `mines = 0`, out of
range, yet `nextGame` does not surface any error: it returns normally and
starts a fresh in-progress game on a new 16x16 all-unrevealed board with
the previous configuration — contradicting "surfaces a ConfigInvalid error
rather than starting or continuing a game". -/
theorem C5_counterexample :
    validGameConfig (some (2, 3, 0)) = false ∧
    (nextGame mgDefault (some (2, 3, 0))).2 =
      ⟨16, 16, 40, List.replicate 16 (List.replicate 16 '?'), [], 0, true⟩ ∧
    (nextGame mgDefault (some (2, 3, 0))).1 = initDyn := by
  refine ⟨by decide, by decide, rfl⟩

/-! ## C8: what `determineMove` can return -/

/-- Helper: indexing a nonempty list by an oracle reduced mod its length
yields one of its elements. -/
theorem getD_mod_mem {l : List Pos} (h : l ≠ []) (r : Nat) (x : Pos) :
    l.getD (r % l.length) x ∈ l := by
  have hlen : 0 < l.length := List.length_pos.mpr h
  have hlt : r % l.length < l.length := Nat.mod_lt _ hlen
  rw [List.getD_eq_getElem l x hlt]
  exact List.getElem_mem hlt

/-- Helper: a list whose `isEmpty` test fails is not `[]`. -/
theorem ne_nil_of_not_isEmpty {l : List Pos} (h : ¬ l.isEmpty = true) : l ≠ [] := by
  intro he
  rw [he] at h
  exact h rfl

/-- Helper: `selectMovePreferCornersEdges` only returns elements of its
candidate pool. -/
theorem selectMove_mem {g : GameCtx} {l : List Pos} {r : Nat} {m : Pos}
    (h : selectMovePreferCornersEdges g l r = some m) : m ∈ l := by
  simp only [selectMovePreferCornersEdges] at h
  by_cases h1 : (l.filter (fun p =>
      (decide (p.1 = 0) || decide (p.1 = g.rows - 1)) &&
      (decide (p.2 = 0) || decide (p.2 = g.cols - 1)))).isEmpty = true
  · rw [if_neg (not_not_intro h1)] at h
    by_cases h2 : (l.filter (fun p =>
        decide (p.1 = 0) || decide (p.1 = g.rows - 1) ||
        decide (p.2 = 0) || decide (p.2 = g.cols - 1))).isEmpty = true
    · rw [if_neg (not_not_intro h2)] at h
      by_cases h3 : l.isEmpty = true
      · rw [if_pos h3] at h
        cases h
      · rw [if_neg h3] at h
        simp only [Option.some.injEq] at h
        subst h
        exact getD_mod_mem (ne_nil_of_not_isEmpty h3) r (0, 0)
    · rw [if_pos h2] at h
      simp only [Option.some.injEq] at h
      subst h
      exact List.mem_of_mem_filter (getD_mod_mem (ne_nil_of_not_isEmpty h2) r (0, 0))
  · rw [if_pos h1] at h
    simp only [Option.some.injEq] at h
    subst h
    exact List.mem_of_mem_filter (getD_mod_mem (ne_nil_of_not_isEmpty h1) r (0, 0))

/-- C8 amended.  A coordinate returned by `determineMove` comes from one of
four pools: the popped head of `safeUnrevealed`; the minimum-probability
entry of `squaresByProb`; a non-frontier unknown (which the solver's own
view shows as still unknown); or — in the final fallback — any square that
is merely unrevealed on the *game* board, a pool that ignores the solver's
annotations and can therefore contain solver-marked mines. -/
theorem C8_determineMove_pools (g : GameCtx) (d : Dyn) (r : Nat) (dm : Dyn × Pos)
    (h : determineMove g d r = some dm) :
    (dm.2 ∈ d.safeUnrevealed) ∨
    (dm.2 ∈ minProbSquares d.squaresByProb) ∨
    (solverSafeGet g d dm.2 = some '?') ∨
    (gameSafeGet g dm.2 = some '?') := by
  simp only [determineMove] at h
  cases hsu : d.safeUnrevealed with
  | cons m rest =>
    rw [hsu] at h
    simp only [Option.some.injEq] at h
    subst h
    exact Or.inl (hsu ▸ List.mem_cons_self m rest)
  | nil =>
    rw [hsu] at h
    dsimp only at h
    by_cases h1 : ¬ d.squaresByProb.isEmpty = true ∧
        ((getNonFrontierUnknowns g d).isEmpty = true ∨
          pfLe (minProbKey d.squaresByProb)
            (pfDivInt (pfSub (pfOfInt (g.gameMines - d.mines.length)) d.expectedMineTotal)
              (getNonFrontierUnknowns g d).length) = true)
    · rw [if_pos h1] at h
      cases hsel : selectMovePreferCornersEdges g (minProbSquares d.squaresByProb) r with
      | none => rw [hsel] at h; cases h
      | some m =>
        rw [hsel] at h
        simp only [Option.map_some', Option.some.injEq] at h
        subst h
        exact Or.inr (Or.inl (selectMove_mem hsel))
    · rw [if_neg h1] at h
      by_cases h2 : ¬ (getNonFrontierUnknowns g d).isEmpty = true
      · rw [if_pos h2] at h
        cases hsel : selectMovePreferCornersEdges g (getNonFrontierUnknowns g d) r with
        | none => rw [hsel] at h; cases h
        | some m =>
          rw [hsel] at h
          simp only [Option.map_some', Option.some.injEq] at h
          subst h
          have hmem := selectMove_mem hsel
          simp only [getNonFrontierUnknowns, List.mem_filter, Bool.and_eq_true,
            beq_iff_eq] at hmem
          exact Or.inr (Or.inr (Or.inl hmem.2.1))
      · rw [if_neg h2] at h
        by_cases h3 : ((allCells g).filter (fun p => gameSafeGet g p == some '?')).isEmpty = true
        · rw [if_pos h3] at h
          cases h
        · rw [if_neg h3] at h
          simp only [Option.some.injEq] at h
          subst h
          have hmem := getD_mod_mem (ne_nil_of_not_isEmpty h3) r (0, 0)
          have hval := (List.mem_filter.mp hmem).2
          simp only [beq_iff_eq] at hval
          exact Or.inr (Or.inr (Or.inr hval))

/-- Witness for the amended C8 at the `gC8` fallback state. -/
theorem C8_determineMove_pools_witness :
    determineMove gC8 dC8 0 = some (dC8, (1, 1)) ∧
    ((((1 : Int), (1 : Int)) ∈ dC8.safeUnrevealed) ∨
     (((1 : Int), (1 : Int)) ∈ minProbSquares dC8.squaresByProb) ∨
     (solverSafeGet gC8 dC8 (1, 1) = some '?') ∨
     (gameSafeGet gC8 (1, 1) = some '?')) := by
  have hd : determineMove gC8 dC8 0 = some (dC8, (1, 1)) := by decide
  exact ⟨hd, C8_determineMove_pools gC8 dC8 0 (dC8, (1, 1)) hd⟩

/-- C8 counterexample.  In the fully constrained state `(gC8, dC8)` —
`safeUnrevealed` and `squaresByProb` empty, no non-frontier unknowns —
the fallback branch of `determineMove` returns `(1, 1)`, a square the
solver has marked as a known mine, contradicting "the square picked
uniformly at random is still Unknown". -/
theorem C8_counterexample :
    dC8.safeUnrevealed = [] ∧
    dC8.squaresByProb = [] ∧
    getNonFrontierUnknowns gC8 dC8 = [] ∧
    determineMove gC8 dC8 0 = some (dC8, (1, 1)) ∧
    ((1 : Int), (1 : Int)) ∈ dC8.mines := by
  refine ⟨rfl, rfl, by decide, by decide, by decide⟩

/-! ## C10: a zero-count unknown ends the whole enumeration pass -/

/-- C10.  When the tally reaches an unknown `u` contained in zero surviving
solutions, it adds exactly that square to `safeUnrevealed` and returns
`markSafeAndMines`-wide (`.stop`): the remaining unknowns of the frontier
are not tallied, no further `squaresByProb` entries or mine marks are made,
and (second conjunct) once a frontier stops, the following frontiers are
never processed, so their mine counts are never added to the totals. -/
theorem C10_zero_count_early_return (g : GameCtx) (f : Frontier) (rest : List Frontier)
    (numSolutions : Nat) (cnt : Pos → Nat) (u : Pos) (post : List Pos) (d : Dyn)
    (nm : List Pos) (d0 : Dyn) (nm0 : List Pos) (dE : Dyn)
    (hu : cnt u = 0)
    (hstop : processFrontier g f d0 nm0 = ERes.stop dE) :
    tallyLoop numSolutions cnt (u :: post) d nm =
      ERes.stop {d with safeUnrevealed := SInsert u d.safeUnrevealed} ∧
    processFrontiers g (f :: rest) d0 nm0 = ERes.stop dE := by
  constructor
  · simp only [tallyLoop, hu, if_pos]
  · simp only [processFrontiers, hstop]

/-- Witness for C10 on the `gC10` frontier: the unknown `(0, 2)` lies in no
surviving solution, the frontier's processing stops with exactly the mine
`(0, 1)` and the safe `(0, 2)` recorded, and a following frontier is
skipped. -/
theorem C10_zero_count_early_return_witness :
    solutionsWhereMine fC10.unknowns [1] ((0 : Int), (2 : Int)) = 0 ∧
    tallyLoop 1 (solutionsWhereMine fC10.unknowns [1]) [((0 : Int), (2 : Int))]
      ⟨[(0,1)], [], [], pfOfInt 0, 0, 0⟩ [] =
      ERes.stop ⟨[(0,1)], [(0,2)], [], pfOfInt 0, 0, 0⟩ ∧
    processFrontiers gC10 [fC10, fC10] initDyn [] =
      ERes.stop ⟨[(0,1)], [(0,2)], [], pfOfInt 0, 0, 0⟩ := by
  have hstop : processFrontier gC10 fC10 initDyn [] =
      ERes.stop ⟨[(0,1)], [(0,2)], [], pfOfInt 0, 0, 0⟩ := by decide
  have h := C10_zero_count_early_return gC10 fC10 [fC10] 1
    (solutionsWhereMine fC10.unknowns [1]) (0, 2) []
    ⟨[(0,1)], [], [], pfOfInt 0, 0, 0⟩ [] initDyn [] ⟨[(0,1)], [(0,2)], [], pfOfInt 0, 0, 0⟩
    (by decide) hstop
  refine ⟨by decide, ?_, h.2⟩
  have h1 := h.1
  simpa [SInsert] using h1

/-! ## C2: what `playGame` returns -/

/-- Helper: every normal result of the `playGame` turn loop is the pair
`(isWon, moves)`. -/
theorem playGameLoop_shape (moveFn : Int → MSGame → Pos) (oracle : Nat → Pos) :
    ∀ (fuel : Nat) (g : MSGame) (moves : Int) (k : Nat) (r : List PyVal),
      playGameLoop moveFn oracle fuel g moves k = some r →
      ∃ w m, r = [PyVal.pybool w, PyVal.pyint m] := by
  intro fuel
  induction fuel with
  | zero => intro g moves k r h; cases h
  | succ n ih =>
    intro g moves k r h
    simp only [playGameLoop] at h
    cases hr : revealSquare g (moveFn moves g).1 (moveFn moves g).2 oracle k with
    | none => rw [hr] at h; cases h
    | some gk =>
      rw [hr] at h
      dsimp only at h
      by_cases hp : gk.1.inProgress = true
      · rw [if_pos hp] at h
        exact ih gk.1 (moves + 1) gk.2 r h
      · rw [if_neg hp] at h
        simp only [Option.some.injEq] at h
        exact ⟨isWon gk.1, moves + 1, h.symm⟩

/-- C2 amended.  `playGame` returns the pair `(won, moves)` — a boolean win
flag and the move count; the elapsed duration is printed but not part of
the returned tuple. -/
theorem C2_playGame_returns_pair (cfg : Option (Int × Int × Int)) (g0 : MSGame)
    (moveFn : Int → MSGame → Pos) (oracle : Nat → Pos) (fuel : Nat) (r : List PyVal)
    (h : playGame cfg g0 moveFn oracle fuel = some r) :
    ∃ w m, r = [PyVal.pybool w, PyVal.pyint m] :=
  playGameLoop_shape moveFn oracle fuel (msReset g0 cfg) 0 0 r h

/-- Witness for the amended C2: a finished 1x2 game returns exactly the
two-element tuple. -/
theorem C2_playGame_returns_pair_witness :
    playGame (some (1, 2, 1)) mg0 moveFn0 oracle0 10 =
      some [PyVal.pybool true, PyVal.pyint 1] ∧
    ∃ w m, [PyVal.pybool true, PyVal.pyint 1] = [PyVal.pybool w, PyVal.pyint m] := by
  have h : playGame (some (1, 2, 1)) mg0 moveFn0 oracle0 10 =
      some [PyVal.pybool true, PyVal.pyint 1] := by decide
  exact ⟨h, C2_playGame_returns_pair (some (1, 2, 1)) mg0 moveFn0 oracle0 10 _ h⟩

/-- C2 counterexample.  A completed game's `playGame` result is the
two-element tuple `(won, moves)`; it is not a triple of any kind, so in
particular it carries no duration component. -/
theorem C2_counterexample :
    playGame (some (1, 2, 1)) mg0 moveFn0 oracle0 10 =
      some [PyVal.pybool true, PyVal.pyint 1] ∧
    ¬ ∃ a b c : PyVal, playGame (some (1, 2, 1)) mg0 moveFn0 oracle0 10 = some [a, b, c] := by
  have h : playGame (some (1, 2, 1)) mg0 moveFn0 oracle0 10 =
      some [PyVal.pybool true, PyVal.pyint 1] := by decide
  refine ⟨h, ?_⟩
  rintro ⟨a, b, c, habc⟩
  rw [h] at habc
  simp at habc

/-! ## C3: `analyzeBoard` and idempotence -/

/-- C3 amended.  `analyzeBoard` is a function of the board and of
`(mines, safeUnrevealed)` only, so it is idempotent exactly at its
fixpoints: whenever a call returns with `mines` and `safeUnrevealed`
unchanged, an immediately repeated call returns the identical state (same
`squaresByProb`, `mines`, `safeUnrevealed`).  In general a second call may
differ (see the counterexample). -/
theorem C3_fixpoint_idempotent (g : GameCtx) (d t : Dyn) (h : analyzeBoard g d = some t)
    (hm : t.mines = d.mines) (hs : t.safeUnrevealed = d.safeUnrevealed) :
    analyzeBoard g t = some t := by
  unfold analyzeBoard at h ⊢
  rw [hm, hs]
  exact h

/-- Witness for the amended C3 on a fully revealed 1x1 board. -/
theorem C3_fixpoint_idempotent_witness :
    analyzeBoard gFix initDyn = some initDyn :=
  C3_fixpoint_idempotent gFix initDyn initDyn (by decide) rfl rfl

set_option maxRecDepth 100000 in
/-- C3 counterexample.  On the `gC3` board, the first `analyzeBoard` ends
with a populated `squaresByProb` (it found only probabilistic frontier
squares, then the reconciler marked the three non-frontier unknowns safe);
the second call, seeing `safeUnrevealed` nonempty, returns before
enumerating and leaves `squaresByProb` empty — the two successive calls
disagree on `squaresByProb`, refuting idempotence. -/
theorem C3_counterexample :
    analyzeBoard gC3 initDyn = some dC3a ∧
    analyzeBoard gC3 dC3a = some dC3b ∧
    dC3b.squaresByProb ≠ dC3a.squaresByProb ∧
    dC3b.mines = dC3a.mines ∧ dC3b.safeUnrevealed = dC3a.safeUnrevealed := by
  refine ⟨by decide, by decide, by decide, by decide, by decide⟩

/-! ## C9: the invariant `mines ∩ safeUnrevealed = emptyset`

The proof follows the call structure of `analyzeBoard`: every marking
step adds only squares the solver currently sees as `'?'` (hence in
neither set), except the enumeration tally, whose additions are
justified by the frontier structure built earlier in the same call
(disjoint, duplicate-free unknown lists not yet marked as mines). -/

theorem solverSafeGet_unknown_notMem {g : GameCtx} {d : Dyn} {p : Pos}
    (h : solverSafeGet g d p = some '?') : p ∉ d.mines ∧ p ∉ d.safeUnrevealed := by
  simp only [solverSafeGet] at h
  by_cases hm : p ∈ d.mines
  · rw [if_pos hm] at h
    cases h
  · rw [if_neg hm] at h
    by_cases hs : p ∈ d.safeUnrevealed
    · rw [if_pos hs] at h
      cases h
    · exact ⟨hm, hs⟩

theorem mem_surroundPos_unknown {g : GameCtx} {d : Dyn} {i j : Int} {p : Pos}
    (h : p ∈ surroundPos g d i j isUnknownP) : solverSafeGet g d p = some '?' := by
  obtain ⟨-, v, hv, hc⟩ := mem_surroundPos.mp h
  simp only [isUnknownP, beq_iff_eq] at hc
  rw [hc] at hv
  exact hv

theorem mem_nonAdjacentSafes_unknown {g : GameCtx} {d : Dyn} {i j : Int} {p : Pos}
    (h : p ∈ nonAdjacentSafes g d i j) : solverSafeGet g d p = some '?' := by
  simp only [nonAdjacentSafes, List.mem_filter, Bool.and_eq_true, beq_iff_eq] at h
  exact h.2.2

/-- Full characterization of the set changes made by `analyzeNumSquare`:
both sets only grow; new mines come from the adjacent unknowns (and only
in the all-mines branch); new safes come from `nonAdjacentSafes` or from
the adjacent unknowns (and only in the all-safes branch). -/
theorem analyzeNumSquare_marks (g : GameCtx) (d : Dyn) (i j : Int) (nm : List Pos) :
    (∀ p, p ∈ d.mines → p ∈ (analyzeNumSquare g d i j nm).1.mines) ∧
    (∀ p, p ∈ d.safeUnrevealed → p ∈ (analyzeNumSquare g d i j nm).1.safeUnrevealed) ∧
    (∀ p, p ∈ (analyzeNumSquare g d i j nm).1.mines → p ∈ d.mines ∨
      (((surroundPos g d i j isUnknownP).length : Int) -
        (numberOf (getCh g d (i, j)) - ((surroundPos g d i j isMineP).length : Int)) = 0 ∧
       p ∈ surroundPos g d i j isUnknownP)) ∧
    (∀ p, p ∈ (analyzeNumSquare g d i j nm).1.safeUnrevealed → p ∈ d.safeUnrevealed ∨
      p ∈ nonAdjacentSafes g d i j ∨
      (¬ ((surroundPos g d i j isUnknownP).length : Int) -
        (numberOf (getCh g d (i, j)) - ((surroundPos g d i j isMineP).length : Int)) = 0 ∧
       p ∈ surroundPos g d i j isUnknownP)) := by
  by_cases hne : (surroundPos g d i j isUnknownP).isEmpty = true
  · unfold analyzeNumSquare
    rw [if_pos hne]
    exact ⟨fun p hp => hp, fun p hp => hp, fun p hp => Or.inl hp, fun p hp => Or.inl hp⟩
  · rw [analyzeNumSquare_spec g d i j nm (Bool.eq_false_iff.mpr hne)]
    dsimp only
    by_cases hg : numberOf (getCh g d (i, j)) - ((surroundPos g d i j isMineP).length : Int) =
        g.gameMines - d.mines.length
    · rw [if_pos hg]
      split_ifs with h1 h2 <;>
        refine ⟨fun p hp => ?_, fun p hp => ?_, fun p hp => ?_, fun p hp => ?_⟩ <;>
        simp only [mem_SUnion] at * <;> tauto
    · rw [if_neg hg]
      split_ifs with h1 h2 <;>
        refine ⟨fun p hp => ?_, fun p hp => ?_, fun p hp => ?_, fun p hp => ?_⟩ <;>
        simp only [mem_SUnion] at * <;> tauto

/-- `analyzeNumSquare` preserves disjointness of `mines` and
`safeUnrevealed`. -/
theorem analyzeNumSquare_inv {g : GameCtx} {d : Dyn} {i j : Int} {nm : List Pos}
    (hd : DisjointMS d) : DisjointMS (analyzeNumSquare g d i j nm).1 := by
  obtain ⟨-, -, hm, hs⟩ := analyzeNumSquare_marks g d i j nm
  intro p hp hps
  rcases hm p hp with hp2 | ⟨hc1, hp2⟩
  · rcases hs p hps with hps2 | hps2 | ⟨hc2, hps2⟩
    · exact hd p hp2 hps2
    · exact (solverSafeGet_unknown_notMem (mem_nonAdjacentSafes_unknown hps2)).1 hp2
    · exact (solverSafeGet_unknown_notMem (mem_surroundPos_unknown hps2)).1 hp2
  · rcases hs p hps with hps2 | hps2 | ⟨hc2, hps2⟩
    · exact (solverSafeGet_unknown_notMem (mem_surroundPos_unknown hp2)).2 hps2
    · exact notMem_nonAdjacentSafes hp2 hps2
    · exact hc2 hc1

/-- `analyzeNumSquare` only adds mines among the 8 neighbors of its
square. -/
theorem analyzeNumSquare_mines_sub {g : GameCtx} {d : Dyn} {i j : Int} {nm : List Pos}
    {p : Pos} (hp : p ∈ (analyzeNumSquare g d i j nm).1.mines) :
    p ∈ d.mines ∨ p ∈ neighborsRC i j := by
  rcases (analyzeNumSquare_marks g d i j nm).2.2.1 p hp with hp2 | ⟨-, hp2⟩
  · exact Or.inl hp2
  · exact Or.inr (mem_surroundPos.mp hp2).1

/-- The whole-`markSafeAndMines` invariant for the tally loop: when
`safeUnrevealed` is empty, the unknown list is duplicate-free and none of
it is a known mine, every exit of the tally preserves disjointness, and a
normal exit only adds mines from the unknown list. -/
theorem tallyLoop_inv (ns : Nat) (cnt : Pos → Nat) :
    ∀ (us : List Pos) (d : Dyn) (nm : List Pos),
      DisjointMS d → d.safeUnrevealed = [] → us.Nodup → (∀ u ∈ us, u ∉ d.mines) →
      (∀ dres, tallyLoop ns cnt us d nm = ERes.stop dres → DisjointMS dres) ∧
      (∀ dres nmres, tallyLoop ns cnt us d nm = ERes.next dres nmres →
        DisjointMS dres ∧ dres.safeUnrevealed = [] ∧
        ∀ p, p ∈ dres.mines → p ∈ d.mines ∨ p ∈ us) := by
  intro us
  induction us with
  | nil =>
    intro d nm hd hs _ _
    constructor
    · intro dres h
      cases h
    · intro dres nmres h
      cases h
      exact ⟨hd, hs, fun p hp => Or.inl hp⟩
  | cons u us ih =>
    intro d nm hd hs hnd hm
    by_cases h0 : cnt u = 0
    · constructor
      · intro dres h
        simp only [tallyLoop, if_pos h0] at h
        cases h
        intro p hp hps
        simp only at hp hps
        rw [hs, mem_SInsert] at hps
        rcases hps with heq | hps
        · subst heq
          exact hm p (List.mem_cons_self p us) hp
        · cases hps
      · intro dres nmres h
        simp only [tallyLoop, if_pos h0] at h
        cases h
    · by_cases hn : cnt u = ns
      · have ih2 := ih
          {d with mines := SInsert u d.mines,
                  minMineTotal := d.minMineTotal - 1,
                  maxMineTotal := d.maxMineTotal - 1,
                  expectedMineTotal := pfSub d.expectedMineTotal (pfOfInt 1)}
          (SInsert u nm)
          (by intro p hp hps
              simp only at hp hps
              rw [hs] at hps
              cases hps)
          (by simp [hs]) ((List.nodup_cons.mp hnd).2)
          (by intro v hv
              simp only [mem_SInsert]
              rintro (heq | hvm)
              · exact (List.nodup_cons.mp hnd).1 (heq ▸ hv)
              · exact hm v (List.mem_cons_of_mem u hv) hvm)
        constructor
        · intro dres h
          simp only [tallyLoop, if_neg h0, if_pos hn] at h
          exact ih2.1 dres h
        · intro dres nmres h
          simp only [tallyLoop, if_neg h0, if_pos hn] at h
          obtain ⟨ha, hb, hc⟩ := ih2.2 dres nmres h
          refine ⟨ha, hb, fun p hp => ?_⟩
          rcases hc p hp with hp2 | hp2
          · simp only [mem_SInsert] at hp2
            rcases hp2 with heq | hp2
            · exact Or.inr (heq ▸ List.mem_cons_self u us)
            · exact Or.inl hp2
          · exact Or.inr (List.mem_cons_of_mem u hp2)
      · have ih2 := ih
          {d with squaresByProb := probInsert (pfRatio (cnt u) ns) u d.squaresByProb}
          nm (by intro p hp hps; exact hd p hp hps) hs ((List.nodup_cons.mp hnd).2)
          (fun v hv => hm v (List.mem_cons_of_mem u hv))
        constructor
        · intro dres h
          simp only [tallyLoop, if_neg h0, if_neg hn] at h
          exact ih2.1 dres h
        · intro dres nmres h
          simp only [tallyLoop, if_neg h0, if_neg hn] at h
          obtain ⟨ha, hb, hc⟩ := ih2.2 dres nmres h
          exact ⟨ha, hb, fun p hp => (hc p hp).imp id (List.mem_cons_of_mem u)⟩

/-- `processFrontier` either crashes or runs the tally loop on the
frontier's unknowns from a state with the same two coordinate sets. -/
theorem processFrontier_eq (g : GameCtx) (f : Frontier) (d : Dyn) (nm : List Pos) :
    processFrontier g f d nm = ERes.crash ∨
    ∃ ns cnt d2, (d2 : Dyn).mines = d.mines ∧ d2.safeUnrevealed = d.safeUnrevealed ∧
      processFrontier g f d nm = tallyLoop ns cnt f.unknowns d2 nm := by
  unfold processFrontier
  dsimp only
  split
  · exact Or.inl rfl
  · split
    · exact Or.inl rfl
    · split
      · exact Or.inl rfl
      · split
        · exact Or.inl rfl
        · right
          refine ⟨_, _, _, ?_, ?_, rfl⟩
          · rfl
          · rfl

/-- Invariant preservation for one frontier's enumeration step. -/
theorem processFrontier_inv (g : GameCtx) (f : Frontier) (d : Dyn) (nm : List Pos)
    (hd : DisjointMS d) (hs : d.safeUnrevealed = []) (hnd : f.unknowns.Nodup)
    (hm : ∀ u ∈ f.unknowns, u ∉ d.mines) :
    (∀ dres, processFrontier g f d nm = ERes.stop dres → DisjointMS dres) ∧
    (∀ dres nmres, processFrontier g f d nm = ERes.next dres nmres →
      DisjointMS dres ∧ dres.safeUnrevealed = [] ∧
      ∀ p, p ∈ dres.mines → p ∈ d.mines ∨ p ∈ f.unknowns) := by
  rcases processFrontier_eq g f d nm with hcrash | ⟨ns, cnt, d2, hm2, hs2, heq⟩
  · rw [hcrash]
    constructor
    · intro dres h
      cases h
    · intro dres nmres h
      cases h
  · rw [heq]
    have h2 := tallyLoop_inv ns cnt f.unknowns d2 nm
      (by intro p hp hps
          rw [hm2] at hp
          rw [hs2] at hps
          exact hd p hp hps)
      (by rw [hs2]; exact hs) hnd
      (by intro u hu
          rw [hm2]
          exact hm u hu)
    refine ⟨h2.1, fun dres nmres h => ?_⟩
    obtain ⟨ha, hb, hc⟩ := h2.2 dres nmres h
    refine ⟨ha, hb, fun p hp => ?_⟩
    rcases hc p hp with hp2 | hp2
    · rw [hm2] at hp2
      exact Or.inl hp2
    · exact Or.inr hp2

/-- Invariant preservation for the whole enumeration loop: given the
frontier structure facts established earlier in `markSafeAndMines`
(duplicate-free, disjoint, unmarked unknown lists and empty
`safeUnrevealed`), every exit preserves disjointness. -/
theorem processFrontiers_inv (g : GameCtx) :
    ∀ (fs : List Frontier) (d : Dyn) (nm : List Pos),
      DisjointMS d → d.safeUnrevealed = [] →
      (∀ f ∈ fs, f.unknowns.Nodup) →
      (∀ f ∈ fs, ∀ u ∈ f.unknowns, u ∉ d.mines) →
      List.Pairwise (fun f1 f2 => ∀ u ∈ f2.unknowns, u ∉ f1.unknowns) fs →
      (∀ dres, processFrontiers g fs d nm = ERes.stop dres → DisjointMS dres) ∧
      (∀ dres nmres, processFrontiers g fs d nm = ERes.next dres nmres → DisjointMS dres) := by
  intro fs
  induction fs with
  | nil =>
    intro d nm hd _ _ _ _
    constructor
    · intro dres h
      cases h
    · intro dres nmres h
      cases h
      exact hd
  | cons f fs ih =>
    intro d nm hd hs hnd hm hpw
    have hf := processFrontier_inv g f d nm hd hs (hnd f (List.mem_cons_self f fs))
      (hm f (List.mem_cons_self f fs))
    constructor
    · intro dres h
      simp only [processFrontiers] at h
      cases hp : processFrontier g f d nm with
      | crash => rw [hp] at h; cases h
      | stop d2 =>
        rw [hp] at h
        cases h
        exact hf.1 _ hp
      | next d2 nm2 =>
        rw [hp] at h
        obtain ⟨ha, hb, hc⟩ := hf.2 d2 nm2 hp
        have ih2 := ih d2 nm2 ha hb
          (fun f2 hf2 => hnd f2 (List.mem_cons_of_mem f hf2))
          (by intro f2 hf2 u hu hum
              rcases hc u hum with h1 | h1
              · exact hm f2 (List.mem_cons_of_mem f hf2) u hu h1
              · exact (List.pairwise_cons.mp hpw).1 f2 hf2 u hu h1)
          ((List.pairwise_cons.mp hpw).2)
        exact ih2.1 dres h
    · intro dres nmres h
      simp only [processFrontiers] at h
      cases hp : processFrontier g f d nm with
      | crash => rw [hp] at h; cases h
      | stop d2 => rw [hp] at h; cases h
      | next d2 nm2 =>
        rw [hp] at h
        obtain ⟨ha, hb, hc⟩ := hf.2 d2 nm2 hp
        have ih2 := ih d2 nm2 ha hb
          (fun f2 hf2 => hnd f2 (List.mem_cons_of_mem f hf2))
          (by intro f2 hf2 u hu hum
              rcases hc u hum with h1 | h1
              · exact hm f2 (List.mem_cons_of_mem f hf2) u hu h1
              · exact (List.pairwise_cons.mp hpw).1 f2 hf2 u hu h1)
          ((List.pairwise_cons.mp hpw).2)
        exact ih2.2 dres nmres h

/-! ## Set and board lemmas for the disjointness invariant -/

theorem length_SInsert_ge (x : Pos) (l : List Pos) : l.length ≤ (SInsert x l).length := by
  unfold SInsert
  split
  · exact Nat.le_refl _
  · simp

theorem mem_of_length_SInsert_eq {x : Pos} {l : List Pos}
    (h : (SInsert x l).length = l.length) : x ∈ l := by
  by_cases hx : x ∈ l
  · exact hx
  · exfalso
    unfold SInsert at h
    rw [if_neg hx] at h
    simp at h

theorem SInsert_eq_of_mem {x : Pos} {l : List Pos} (h : x ∈ l) : SInsert x l = l := by
  unfold SInsert
  exact if_pos h

theorem nodup_SInsert {x : Pos} {l : List Pos} (h : l.Nodup) : (SInsert x l).Nodup := by
  unfold SInsert
  split
  · exact h
  · simp_all [List.nodup_append]

theorem length_SUnion_ge : ∀ (xs l : List Pos), l.length ≤ (SUnion l xs).length := by
  intro xs
  induction xs with
  | nil => intro l; exact Nat.le_refl _
  | cons x xs ih =>
    intro l
    rw [SUnion_cons]
    exact Nat.le_trans (length_SInsert_ge x l) (ih (SInsert x l))

theorem subset_of_length_SUnion_eq : ∀ {xs l : List Pos},
    (SUnion l xs).length = l.length → ∀ x ∈ xs, x ∈ l := by
  intro xs
  induction xs with
  | nil => intro l h x hx; cases hx
  | cons x xs ih =>
    intro l h y hy
    have h1 : (SInsert x l).length = l.length := by
      have := length_SInsert_ge x l
      have := length_SUnion_ge xs (SInsert x l)
      rw [SUnion_cons] at h
      omega
    have hx : x ∈ l := mem_of_length_SInsert_eq h1
    rw [SUnion_cons, SInsert_eq_of_mem hx] at h
    rcases List.mem_cons.mp hy with rfl | hy2
    · exact hx
    · exact ih h y hy2

theorem SUnion_eq_of_subset : ∀ {xs l : List Pos}, (∀ x ∈ xs, x ∈ l) → SUnion l xs = l := by
  intro xs
  induction xs with
  | nil => intro l _; rfl
  | cons x xs ih =>
    intro l h
    rw [SUnion_cons, SInsert_eq_of_mem (h x (List.mem_cons_self x xs))]
    exact ih (fun y hy => h y (List.mem_cons_of_mem x hy))

theorem nodup_SUnion : ∀ (xs : List Pos) {l : List Pos}, l.Nodup → (SUnion l xs).Nodup := by
  intro xs
  induction xs with
  | nil => intro l h; exact h
  | cons x xs ih =>
    intro l h
    rw [SUnion_cons]
    exact ih (nodup_SInsert h)

theorem mem_allCells {g : GameCtx} {p : Pos} :
    p ∈ allCells g ↔ 0 ≤ p.1 ∧ p.1 < g.rows ∧ 0 ≤ p.2 ∧ p.2 < g.cols := by
  obtain ⟨a, b⟩ := p
  simp only [allCells, List.mem_flatten, List.mem_map, List.mem_range]
  constructor
  · rintro ⟨l, ⟨i, hi, rfl⟩, hm⟩
    simp only [List.mem_map, List.mem_range, Prod.mk.injEq] at hm
    obtain ⟨j, hj, rfl, rfl⟩ := hm
    refine ⟨by omega, by omega, by omega, by omega⟩
  · rintro ⟨h1, h2, h3, h4⟩
    refine ⟨(List.range g.cols.toNat).map
        (fun j => ((Nat.cast a.toNat : Int), (Nat.cast j : Int))),
      ⟨a.toNat, by omega, rfl⟩, ?_⟩
    simp only [List.mem_map, List.mem_range, Prod.mk.injEq]
    exact ⟨b.toNat, by omega, by omega, by omega⟩

theorem length_allCells (g : GameCtx) :
    (allCells g).length = g.rows.toNat * g.cols.toNat := by
  rw [allCells, List.length_flatten, List.map_map]
  have h : (List.length ∘ fun i : Nat =>
      List.map (fun j : Nat => ((Nat.cast i : Int), (Nat.cast j : Int)))
        (List.range g.cols.toNat)) = fun _ : Nat => g.cols.toNat := by
    funext i
    simp [Function.comp]
  rw [h, List.map_const', List.sum_replicate, List.length_range, smul_eq_mul, mul_comm]

theorem unknown_mem_allCells {g : GameCtx} {d : Dyn} {p : Pos}
    (h : solverSafeGet g d p = some '?') : p ∈ allCells g := by
  unfold solverSafeGet at h
  by_cases h1 : p ∈ d.mines
  · rw [if_pos h1] at h
    cases h
  · rw [if_neg h1] at h
    by_cases h2 : p ∈ d.safeUnrevealed
    · rw [if_pos h2] at h
      cases h
    · rw [if_neg h2] at h
      unfold gameSafeGet at h
      split at h
      · cases h
      · rename_i hb
        push_neg at hb
        exact mem_allCells.mpr ⟨by omega, hb.2.1, by omega, hb.2.2.2⟩

set_option maxHeartbeats 1600000 in
theorem mem_neighborsRC_iff {i j : Int} {p : Pos} :
    p ∈ neighborsRC i j ↔ chebyshev (i, j) p = 1 := by
  constructor
  · exact cheb_of_mem_neighborsRC
  · intro h
    obtain ⟨a, b⟩ := p
    simp only [chebyshev] at h
    simp only [neighborsRC, List.mem_cons, List.not_mem_nil, or_false, Prod.mk.injEq]
    omega

theorem neighborsRC_symm {i j : Int} {p : Pos} (h : p ∈ neighborsRC i j) :
    (i, j) ∈ neighborsRC p.1 p.2 := by
  rw [mem_neighborsRC_iff] at h ⊢
  simp only [chebyshev] at h ⊢
  omega

theorem nodup_neighborsRC {i j : Int} : (neighborsRC i j).Nodup := by
  simp [neighborsRC, Prod.mk.injEq]
  omega

theorem filterMap_self_sublist {α : Type} (f : α → Option α)
    (h : ∀ a b, f a = some b → b = a) : ∀ l : List α, List.Sublist (l.filterMap f) l := by
  intro l
  induction l with
  | nil => exact List.Sublist.slnil
  | cons a l ih =>
    rw [List.filterMap_cons]
    cases hf : f a with
    | none => exact List.Sublist.cons a ih
    | some b =>
      rw [h a b hf]
      exact List.Sublist.cons₂ a ih

theorem surroundPos_sublist {g : GameCtx} {d : Dyn} {i j : Int} {c : Pos → Char → Bool} :
    List.Sublist (surroundPos g d i j c) (neighborsRC i j) := by
  unfold surroundPos surround
  rw [List.map_filterMap]
  apply filterMap_self_sublist
  intro a b hf
  cases hsg : solverSafeGet g d a with
  | none => rw [hsg] at hf; cases hf
  | some v =>
    rw [hsg] at hf
    dsimp only at hf
    by_cases hc : c a v = true
    · rw [if_pos hc] at hf
      simp only [Option.map_some', Option.some.injEq] at hf
      exact hf.symm
    · rw [if_neg hc] at hf
      cases hf

theorem nodup_surroundPos {g : GameCtx} {d : Dyn} {i j : Int} {c : Pos → Char → Bool} :
    (surroundPos g d i j c).Nodup :=
  List.Nodup.sublist surroundPos_sublist nodup_neighborsRC

theorem surroundCount_ne_zero {g : GameCtx} {d : Dyn} {i j : Int} {c : Pos → Char → Bool}
    {q : Pos} {v : Char} (hq : q ∈ neighborsRC i j) (hv : solverSafeGet g d q = some v)
    (hc : c q v = true) : surroundCount g d i j c ≠ 0 := by
  unfold surroundCount
  have hmem : (q, v) ∈ surround g d i j c := by
    unfold surround
    rw [List.mem_filterMap]
    exact ⟨q, hq, by rw [hv]; simp [hc]⟩
  intro h0
  rw [List.length_eq_zero] at h0
  rw [h0] at hmem
  cases hmem

theorem stable_solverSafeGet {g : GameCtx} {d d' : Dyn}
    (hm : ∀ p, p ∈ d.mines → p ∈ d'.mines)
    (hs : ∀ p, p ∈ d.safeUnrevealed → p ∈ d'.safeUnrevealed)
    (hm2 : ∀ p, p ∈ d'.mines → p ∈ d.mines ∨ solverSafeGet g d p = some '?')
    (hs2 : ∀ p, p ∈ d'.safeUnrevealed → p ∈ d.safeUnrevealed ∨ solverSafeGet g d p = some '?') :
    ∀ q c, solverSafeGet g d q = some c → c ≠ '?' → solverSafeGet g d' q = some c := by
  intro q c hq hc
  have hqd : solverSafeGet g d q = some c := hq
  unfold solverSafeGet at hq ⊢
  by_cases h1 : q ∈ d.mines
  · rw [if_pos h1] at hq
    rw [if_pos (hm q h1)]
    exact hq
  · rw [if_neg h1] at hq
    by_cases h2 : q ∈ d.safeUnrevealed
    · rw [if_pos h2] at hq
      have h1' : q ∉ d'.mines := by
        intro hx
        rcases hm2 q hx with h | h
        · exact h1 h
        · rw [hqd] at h
          cases hq
          cases h
      rw [if_neg h1', if_pos (hs q h2)]
      exact hq
    · rw [if_neg h2] at hq
      have h1' : q ∉ d'.mines := by
        intro hx
        rcases hm2 q hx with h | h
        · exact h1 h
        · rw [hqd] at h
          exact hc (Option.some.inj h)
      have h2' : q ∉ d'.safeUnrevealed := by
        intro hx
        rcases hs2 q hx with h | h
        · exact h2 h
        · rw [hqd] at h
          exact hc (Option.some.inj h)
      rw [if_neg h1', if_neg h2']
      exact hq

theorem solverSafeGet_congr {g : GameCtx} {d d' : Dyn} (h1 : d'.mines = d.mines)
    (h2 : d'.safeUnrevealed = d.safeUnrevealed) (q : Pos) :
    solverSafeGet g d' q = solverSafeGet g d q := by
  unfold solverSafeGet
  rw [h1, h2]

theorem forall2_mem_right {R : Frontier → Frontier → Prop} :
    ∀ {l l' : List Frontier}, List.Forall₂ R l l' → ∀ b ∈ l', ∃ a ∈ l, R a b := by
  intro l l' h
  induction h with
  | nil => intro b hb; cases hb
  | cons hab _ ih =>
    intro b hb
    rcases List.mem_cons.mp hb with rfl | hb2
    · exact ⟨_, List.mem_cons_self _ _, hab⟩
    · obtain ⟨a, ha, hr⟩ := ih b hb2
      exact ⟨a, List.mem_cons_of_mem _ ha, hr⟩

theorem FrRel_refl (f : Frontier) : FrRel f f := ⟨fun _ hu => hu, id⟩

theorem FrRel_trans {f1 f2 f3 : Frontier} (h1 : FrRel f1 f2) (h2 : FrRel f2 f3) :
    FrRel f1 f3 :=
  ⟨fun u hu => h1.1 u (h2.1 u hu), fun hn => h2.2 (h1.2 hn)⟩

theorem forall2_FrRel_refl (l : List Frontier) : List.Forall₂ FrRel l l := by
  induction l with
  | nil => exact List.Forall₂.nil
  | cons f l ih => exact List.Forall₂.cons (FrRel_refl f) ih

theorem forall2_FrRel_trans : ∀ {l1 l2 l3 : List Frontier}, List.Forall₂ FrRel l1 l2 →
    List.Forall₂ FrRel l2 l3 → List.Forall₂ FrRel l1 l3 := by
  intro l1 l2 l3 h1
  induction h1 generalizing l3 with
  | nil =>
    intro h2
    cases h2
    exact List.Forall₂.nil
  | cons hab _ ih =>
    intro h2
    cases h2 with
    | cons hbc htail => exact List.Forall₂.cons (FrRel_trans hab hbc) (ih htail)

theorem forall2_FrSep {l l' : List Frontier} (h : List.Forall₂ FrRel l l') (hs : FrSep l) :
    FrSep l' := by
  unfold FrSep at hs ⊢
  induction h with
  | nil => exact List.Pairwise.nil
  | cons hab htail ih =>
    rw [List.pairwise_cons] at hs ⊢
    refine ⟨?_, ih hs.2⟩
    intro b' hb' u hu hub
    obtain ⟨a', ha', hr⟩ := forall2_mem_right htail b' hb'
    exact hs.1 a' ha' u (hr.1 u hu) (hab.1 u hub)

theorem SUnion_append {l xs ys : List Pos} :
    SUnion l (xs ++ ys) = SUnion (SUnion l xs) ys := by
  unfold SUnion
  rw [List.foldl_append]

/-- What `analyzeNumSquare` appends to `newMarks`: a batch of squares it
currently sees as `'?'`, all of which it simultaneously marks; if the batch
was already recorded, nothing was marked. -/
theorem analyzeNumSquare_nmX (g : GameCtx) (d : Dyn) (i j : Int) (nm : List Pos) :
    ∃ X, (analyzeNumSquare g d i j nm).2.1 = SUnion nm X ∧
      (∀ x ∈ X, solverSafeGet g d x = some '?' ∧
        (x ∈ (analyzeNumSquare g d i j nm).1.mines ∨
         x ∈ (analyzeNumSquare g d i j nm).1.safeUnrevealed)) ∧
      ((∀ x ∈ X, x ∈ nm) → NMSub d nm →
        (analyzeNumSquare g d i j nm).1.mines = d.mines ∧
        (analyzeNumSquare g d i j nm).1.safeUnrevealed = d.safeUnrevealed) := by
  by_cases hne : (surroundPos g d i j isUnknownP).isEmpty = true
  · unfold analyzeNumSquare
    rw [if_pos hne]
    refine ⟨[], rfl, ?_, ?_⟩
    · intro x hx
      cases hx
    · exact fun _ _ => ⟨rfl, rfl⟩
  · have hU : ∃ u, u ∈ surroundPos g d i j isUnknownP :=
      List.exists_mem_of_ne_nil _ (ne_nil_of_not_isEmpty hne)
    have hUcontra : (∀ x ∈ surroundPos g d i j isUnknownP, x ∈ nm) → NMSub d nm → False := by
      intro hsub hnmsub
      obtain ⟨u, hu⟩ := hU
      rcases hnmsub u (hsub u hu) with h | h
      · exact (solverSafeGet_unknown_notMem (mem_surroundPos_unknown hu)).1 h
      · exact (solverSafeGet_unknown_notMem (mem_surroundPos_unknown hu)).2 h
    rw [analyzeNumSquare_spec g d i j nm (Bool.eq_false_iff.mpr hne)]
    dsimp only
    by_cases hg : numberOf (getCh g d (i, j)) - ((surroundPos g d i j isMineP).length : Int) =
        g.gameMines - d.mines.length
    · rw [if_pos hg]
      split_ifs with h1 h2
      · refine ⟨nonAdjacentSafes g d i j ++ surroundPos g d i j isUnknownP,
          by dsimp only; rw [SUnion_append], ?_, ?_⟩
        · intro x hx
          dsimp only
          rcases List.mem_append.mp hx with hx2 | hx2
          · exact ⟨mem_nonAdjacentSafes_unknown hx2, Or.inr (mem_SUnion.mpr (Or.inr hx2))⟩
          · exact ⟨mem_surroundPos_unknown hx2, Or.inl (mem_SUnion.mpr (Or.inr hx2))⟩
        · intro hsub hnmsub
          exact absurd hnmsub (by
            intro hnm
            exact hUcontra
              (fun x hx => hsub x (List.mem_append.mpr (Or.inr hx))) hnm)
      · refine ⟨nonAdjacentSafes g d i j ++ surroundPos g d i j isUnknownP,
          by dsimp only; rw [SUnion_append], ?_, ?_⟩
        · intro x hx
          dsimp only
          rcases List.mem_append.mp hx with hx2 | hx2
          · exact ⟨mem_nonAdjacentSafes_unknown hx2,
              Or.inr (mem_SUnion.mpr (Or.inl (mem_SUnion.mpr (Or.inr hx2))))⟩
          · exact ⟨mem_surroundPos_unknown hx2, Or.inr (mem_SUnion.mpr (Or.inr hx2))⟩
        · intro hsub hnmsub
          exact absurd hnmsub (by
            intro hnm
            exact hUcontra
              (fun x hx => hsub x (List.mem_append.mpr (Or.inr hx))) hnm)
      · refine ⟨nonAdjacentSafes g d i j, rfl, ?_, ?_⟩
        · intro x hx
          dsimp only
          exact ⟨mem_nonAdjacentSafes_unknown hx, Or.inr (mem_SUnion.mpr (Or.inr hx))⟩
        · intro hsub hnmsub
          have hna : nonAdjacentSafes g d i j = [] := by
            rw [List.eq_nil_iff_forall_not_mem]
            intro x hx
            rcases hnmsub x (hsub x hx) with h | h
            · exact (solverSafeGet_unknown_notMem (mem_nonAdjacentSafes_unknown hx)).1 h
            · exact (solverSafeGet_unknown_notMem (mem_nonAdjacentSafes_unknown hx)).2 h
          dsimp only
          rw [hna]
          exact ⟨rfl, rfl⟩
    · rw [if_neg hg]
      split_ifs with h1 h2
      · refine ⟨surroundPos g d i j isUnknownP, rfl, ?_, ?_⟩
        · intro x hx
          dsimp only
          exact ⟨mem_surroundPos_unknown hx, Or.inl (mem_SUnion.mpr (Or.inr hx))⟩
        · intro hsub hnmsub
          exact absurd hnmsub (fun hnm => hUcontra hsub hnm)
      · refine ⟨surroundPos g d i j isUnknownP, rfl, ?_, ?_⟩
        · intro x hx
          dsimp only
          exact ⟨mem_surroundPos_unknown hx, Or.inr (mem_SUnion.mpr (Or.inr hx))⟩
        · intro hsub hnmsub
          exact absurd hnmsub (fun hnm => hUcontra hsub hnm)
      · refine ⟨[], rfl, ?_, ?_⟩
        · intro x hx
          cases hx
        · exact fun _ _ => ⟨rfl, rfl⟩

theorem Ste_refl (g : GameCtx) (a : Dyn × List Pos) : Ste g a a :=
  ⟨Nat.le_refl _, fun _ _ => ⟨rfl, rfl⟩, id, id, fun _ _ h _ => h,
   fun _ h => h, fun _ h => h, id⟩

theorem Ste_trans {g : GameCtx} {a b c : Dyn × List Pos}
    (h1 : Ste g a b) (h2 : Ste g b c) : Ste g a c := by
  obtain ⟨l1, e1, j1, n1, v1, m1, s1, w1⟩ := h1
  obtain ⟨l2, e2, j2, n2, v2, m2, s2, w2⟩ := h2
  refine ⟨Nat.le_trans l1 l2, ?_, fun h => j2 (j1 h), fun h => n2 (n1 h),
    fun q ch h hc => v2 q ch (v1 q ch h hc) hc, fun p h => m2 p (m1 p h),
    fun p h => s2 p (s1 p h), fun h => w2 (w1 h)⟩
  intro hsub heq
  have hab : b.2.length = a.2.length := by omega
  obtain ⟨hma, hsa⟩ := e1 hsub hab
  have hbc : c.2.length = b.2.length := by omega
  obtain ⟨hmb, hsb⟩ := e2 (n1 hsub) hbc
  exact ⟨hmb.trans hma, hsb.trans hsa⟩

theorem Ste_foldl {α β : Type} {g : GameCtx} (π : α → Dyn × List Pos) (F : α → β → α)
    (h : ∀ a b, Ste g (π a) (π (F a b))) :
    ∀ (l : List β) (a0 : α), Ste g (π a0) (π (l.foldl F a0)) := by
  intro l
  induction l with
  | nil => intro a0; exact Ste_refl g (π a0)
  | cons x l ih => intro a0; exact Ste_trans (h a0 x) (ih (F a0 x))

/-- One `analyzeNumSquare` call is a valid marking step. -/
theorem Ste_analyzeNumSquare (g : GameCtx) (d : Dyn) (i j : Int) (nm : List Pos) :
    Ste g (d, nm) ((analyzeNumSquare g d i j nm).1, (analyzeNumSquare g d i j nm).2.1) := by
  obtain ⟨X, hX, hXel, hXeq⟩ := analyzeNumSquare_nmX g d i j nm
  obtain ⟨hmono_m, hmono_s, hchar_m, hchar_s⟩ := analyzeNumSquare_marks g d i j nm
  have hm2 : ∀ p, p ∈ (analyzeNumSquare g d i j nm).1.mines →
      p ∈ d.mines ∨ solverSafeGet g d p = some '?' := by
    intro p hp
    rcases hchar_m p hp with h | ⟨-, h⟩
    · exact Or.inl h
    · exact Or.inr (mem_surroundPos_unknown h)
  have hs2 : ∀ p, p ∈ (analyzeNumSquare g d i j nm).1.safeUnrevealed →
      p ∈ d.safeUnrevealed ∨ solverSafeGet g d p = some '?' := by
    intro p hp
    rcases hchar_s p hp with h | h | ⟨-, h⟩
    · exact Or.inl h
    · exact Or.inr (mem_nonAdjacentSafes_unknown h)
    · exact Or.inr (mem_surroundPos_unknown h)
  refine ⟨?_, ?_, fun h => analyzeNumSquare_inv h, ?_, ?_, hmono_m, hmono_s, ?_⟩
  · dsimp only
    rw [hX]
    exact length_SUnion_ge X nm
  · intro hsub heq
    dsimp only at heq
    rw [hX] at heq
    exact hXeq (subset_of_length_SUnion_eq heq) hsub
  · intro hsub p hp
    dsimp only at hp
    rw [hX] at hp
    rcases mem_SUnion.mp hp with h | h
    · rcases hsub p h with h2 | h2
      · exact Or.inl (hmono_m p h2)
      · exact Or.inr (hmono_s p h2)
    · exact (hXel p h).2
  · exact stable_solverSafeGet hmono_m hmono_s hm2 hs2
  · intro hwf
    dsimp only
    rw [hX]
    refine ⟨nodup_SUnion X hwf.1, ?_⟩
    intro p hp
    rcases mem_SUnion.mp hp with h | h
    · exact hwf.2 p h
    · exact unknown_mem_allCells (hXel p h).1

/-- `analyzeNumSquaresInOrderFromNewMarks` as a fold of `roundStep`. -/
theorem ANSIOFNM_eq (g : GameCtx) (d : Dyn) (frontiers : List Frontier) (nm : List Pos) :
    analyzeNumSquaresInOrderFromNewMarks g d frontiers nm =
      (let res := frontiers.foldl (roundStep g) (d, [], nm)
       (res.1, res.2.1, res.2.2, decide (nm.length < res.2.2.length))) := rfl

/-- A radial sweep is a valid marking step. -/
theorem Ste_sweepSquares (g : GameCtx) (squares : List Pos) (acc : Dyn × List Pos) :
    Ste g acc (sweepSquares g squares acc) := by
  unfold sweepSquares
  exact Ste_trans
    (Ste_foldl id
      (fun (a : Dyn × List Pos) (pq : Pos) =>
        ((analyzeNumSquare g a.1 pq.1 pq.2 a.2).1, (analyzeNumSquare g a.1 pq.1 pq.2 a.2).2.1))
      (fun a b => Ste_analyzeNumSquare g a.1 b.1 b.2 a.2) squares acc)
    (Ste_foldl id
      (fun (a : Dyn × List Pos) (pq : Pos) =>
        ((analyzeNumSquare g a.1 pq.1 pq.2 a.2).1, (analyzeNumSquare g a.1 pq.1 pq.2 a.2).2.1))
      (fun a b => Ste_analyzeNumSquare g a.1 b.1 b.2 a.2) squares.reverse _)

/-- Invariants of one round of `analyzeNumSquaresInOrderFromNewMarks`,
stated for its underlying fold: the state change is a valid marking step,
the produced frontiers are the input frontiers with re-filtered unknowns,
and if the round marked nothing then every produced frontier's unknowns
still read `'?'` in the final state. -/
theorem roundStep_fold (g : GameCtx) (fs : List Frontier) :
    ∀ acc : Dyn × List Frontier × List Pos,
      Ste g (acc.1, acc.2.2)
        ((fs.foldl (roundStep g) acc).1, (fs.foldl (roundStep g) acc).2.2) ∧
      ∃ l2, (fs.foldl (roundStep g) acc).2.1 = acc.2.1 ++ l2 ∧
        List.Forall₂ FrRel fs l2 ∧
        (NMSub acc.1 acc.2.2 →
          (fs.foldl (roundStep g) acc).2.2.length = acc.2.2.length →
          ∀ f2 ∈ l2, ∀ u ∈ f2.unknowns,
            solverSafeGet g (fs.foldl (roundStep g) acc).1 u = some '?') := by
  induction fs with
  | nil =>
    intro acc
    refine ⟨Ste_refl g _, [], by simp, List.Forall₂.nil, ?_⟩
    intro _ _ f2 hf2
    cases hf2
  | cons f fs ih =>
    intro acc
    have hstep : Ste g (acc.1, acc.2.2) ((roundStep g acc f).1, (roundStep g acc f).2.2) :=
      Ste_foldl id (fun (a : Dyn × List Pos) mn => sweepSquares g (sortByDistFrom f.nums mn) a)
        (fun a b => Ste_sweepSquares g (sortByDistFrom f.nums b) a) f.newMarks (acc.1, acc.2.2)
    obtain ⟨hs2, l2', hl2', hfa', hq'⟩ := ih (roundStep g acc f)
    rw [List.foldl_cons]
    refine ⟨Ste_trans hstep hs2, ?_⟩
    refine ⟨{f with unknowns := f.unknowns.filter (fun u => solverSafeGet g (roundStep g acc f).1 u == some '?')} :: l2',
      ?_, ?_, ?_⟩
    · rw [hl2']
      show (acc.2.1 ++ [_]) ++ l2' = _
      rw [List.append_assoc, List.singleton_append]
      rfl
    · refine List.Forall₂.cons ⟨?_, ?_⟩ hfa'
      · intro u hu
        exact List.mem_of_mem_filter hu
      · intro hn
        exact List.Nodup.filter _ hn
    · intro hnmsub hleneq f2' hf2' u hu
      have l1le := hstep.1
      have l2le := hs2.1
      dsimp only at l1le l2le
      have heq1 : (roundStep g acc f).2.2.length = acc.2.2.length := by omega
      have hnmsub1 : NMSub (roundStep g acc f).1 (roundStep g acc f).2.2 :=
        hstep.2.2.2.1 hnmsub
      have heq2 : (fs.foldl (roundStep g) (roundStep g acc f)).2.2.length =
          (roundStep g acc f).2.2.length := by omega
      obtain ⟨hmeq2, hseq2⟩ := hs2.2.1 hnmsub1 heq2
      rcases List.mem_cons.mp hf2' with rfl | hmem
      · have hq : solverSafeGet g (roundStep g acc f).1 u = some '?' := by
          have := (List.mem_filter.mp hu).2
          simpa using this
        rw [solverSafeGet_congr hmeq2 hseq2 u]
        exact hq
      · exact hq' hnmsub1 heq2 f2' hmem u hu

/-- Exit analysis of the fixpoint loop: the loop is a valid marking step,
returns re-filtered versions of the input frontiers, and on exit either a
safe square is pending (and `markSafeAndMines` returns at its next guard) or
the frontiers' unknowns all still read `'?'` in the exit state.  The fuel
bound `|allCells| + 2 ≤ fuel + |newMarks|` guarantees the loop never runs
out of fuel (each repeated round strictly grows the duplicate-free on-board
`newMarks` set). -/
theorem fixLoop_out (g : GameCtx) : ∀ (fuel : Nat) (d : Dyn) (fs : List Frontier)
    (nm : List Pos), NMSub d nm → NMWf g nm →
    (allCells g).length + 2 ≤ fuel + nm.length →
    Ste g (d, nm) ((fixLoop g fuel d fs nm).1, (fixLoop g fuel d fs nm).2.2) ∧
    List.Forall₂ FrRel fs (fixLoop g fuel d fs nm).2.1 ∧
    (¬ (fixLoop g fuel d fs nm).1.safeUnrevealed.isEmpty = true ∨
      ∀ f2 ∈ (fixLoop g fuel d fs nm).2.1, ∀ u ∈ f2.unknowns,
        solverSafeGet g (fixLoop g fuel d fs nm).1 u = some '?') := by
  intro fuel
  induction fuel with
  | zero =>
    intro d fs nm hsub hwf hfuel
    exfalso
    have hle : nm.length ≤ (allCells g).length :=
      (hwf.1.subperm (fun p hp => hwf.2 p hp)).length_le
    omega
  | succ fuel ih =>
    intro d fs nm hsub hwf hfuel
    by_cases hsafe : ¬ d.safeUnrevealed.isEmpty = true
    · have hfix : fixLoop g (fuel + 1) d fs nm = (d, fs, nm) := by
        unfold fixLoop
        rw [if_pos hsafe]
      rw [hfix]
      exact ⟨Ste_refl g _, forall2_FrRel_refl fs, Or.inl hsafe⟩
    · obtain ⟨hrste, l2, hl2, hfa, hq⟩ := roundStep_fold g fs (d, [], nm)
      have hR21 : (analyzeNumSquaresInOrderFromNewMarks g d fs nm).2.1 = l2 := by
        simpa using hl2
      have hfix0 : fixLoop g (fuel + 1) d fs nm =
          (if ¬ d.safeUnrevealed.isEmpty = true then (d, fs, nm)
           else if (analyzeNumSquaresInOrderFromNewMarks g d fs nm).2.2.2 = true then
            fixLoop g fuel (analyzeNumSquaresInOrderFromNewMarks g d fs nm).1
              (analyzeNumSquaresInOrderFromNewMarks g d fs nm).2.1
              (analyzeNumSquaresInOrderFromNewMarks g d fs nm).2.2.1
          else ((analyzeNumSquaresInOrderFromNewMarks g d fs nm).1,
            (analyzeNumSquaresInOrderFromNewMarks g d fs nm).2.1,
            (analyzeNumSquaresInOrderFromNewMarks g d fs nm).2.2.1)) := rfl
      rw [if_neg hsafe] at hfix0
      have hfix := hfix0
      have hrste1 : Ste g (d, nm) ((analyzeNumSquaresInOrderFromNewMarks g d fs nm).1,
          (analyzeNumSquaresInOrderFromNewMarks g d fs nm).2.2.1) := hrste
      by_cases hprog : (analyzeNumSquaresInOrderFromNewMarks g d fs nm).2.2.2 = true
      · rw [hfix, if_pos hprog]
        have hlt : nm.length < (analyzeNumSquaresInOrderFromNewMarks g d fs nm).2.2.1.length :=
          of_decide_eq_true hprog
        have hsub1 : NMSub (analyzeNumSquaresInOrderFromNewMarks g d fs nm).1
            (analyzeNumSquaresInOrderFromNewMarks g d fs nm).2.2.1 :=
          hrste1.2.2.2.1 hsub
        have hwf1 : NMWf g (analyzeNumSquaresInOrderFromNewMarks g d fs nm).2.2.1 :=
          hrste1.2.2.2.2.2.2.2 hwf
        obtain ⟨hste2, hfa2, hexit2⟩ := ih (analyzeNumSquaresInOrderFromNewMarks g d fs nm).1
          (analyzeNumSquaresInOrderFromNewMarks g d fs nm).2.1
          (analyzeNumSquaresInOrderFromNewMarks g d fs nm).2.2.1 hsub1 hwf1 (by omega)
        refine ⟨Ste_trans hrste1 hste2, ?_, hexit2⟩
        rw [← hR21] at hfa
        exact forall2_FrRel_trans hfa hfa2
      · rw [hfix, if_neg hprog]
        have hge : nm.length ≤ (analyzeNumSquaresInOrderFromNewMarks g d fs nm).2.2.1.length :=
          hrste1.1
        have hnlt : ¬ nm.length < (analyzeNumSquaresInOrderFromNewMarks g d fs nm).2.2.1.length :=
          fun hlt => hprog (decide_eq_true hlt)
        have heq : (analyzeNumSquaresInOrderFromNewMarks g d fs nm).2.2.1.length =
            nm.length := by omega
        refine ⟨hrste1, ?_, Or.inr ?_⟩
        · rw [hR21]
          exact hfa
        · intro f2 hf2 u hu
          exact hq hsub heq f2 (by rw [hR21] at hf2; exact hf2) u hu

theorem mem_foldl_SUnion (h : Pos → List Pos) : ∀ (l init : List Pos) (p : Pos),
    (p ∈ l.foldl (fun acc mn => SUnion acc (h mn)) init ↔ p ∈ init ∨ ∃ mn ∈ l, p ∈ h mn) := by
  intro l
  induction l with
  | nil => simp
  | cons x l ih =>
    intro init p
    rw [List.foldl_cons, ih, mem_SUnion]
    simp only [List.mem_cons]
    constructor
    · rintro ((hp | hp) | ⟨mn, hm, hp⟩)
      · exact Or.inl hp
      · exact Or.inr ⟨x, Or.inl rfl, hp⟩
      · exact Or.inr ⟨mn, Or.inr hm, hp⟩
    · rintro (hp | ⟨mn, (rfl | hm), hp⟩)
      · exact Or.inl (Or.inl hp)
      · exact Or.inl (Or.inr hp)
      · exact Or.inr ⟨mn, hm, hp⟩

/-- Invariants of the frontier flood-fill loop: the unknown list stays
duplicate-free, every unknown either was an entry unknown or is fresh with
respect to the entry `seen` set, `seen` only grows and covers the exit
unknowns, and all exit unknowns are adjacent to a numbered square and read
`'?'`. -/
theorem bfl_inv (g : GameCtx) (d : Dyn) : ∀ (fuel : Nat) (seen fNums fUnk unknowns : List Pos),
    fUnk.Nodup → (∀ p ∈ fUnk, p ∈ seen) → (∀ p ∈ unknowns, p ∈ seen) →
    (∀ u ∈ fUnk, ADJD g d u) →
    (∀ u ∈ fUnk, solverSafeGet g d u = some '?') →
    (buildFrontierLoop g d fuel seen fNums fUnk unknowns).2.2.Nodup ∧
    (∀ p ∈ (buildFrontierLoop g d fuel seen fNums fUnk unknowns).2.2, p ∈ fUnk ∨ p ∉ seen) ∧
    (∀ p ∈ seen, p ∈ (buildFrontierLoop g d fuel seen fNums fUnk unknowns).1) ∧
    (∀ p ∈ (buildFrontierLoop g d fuel seen fNums fUnk unknowns).2.2,
      p ∈ (buildFrontierLoop g d fuel seen fNums fUnk unknowns).1) ∧
    (∀ u ∈ (buildFrontierLoop g d fuel seen fNums fUnk unknowns).2.2, ADJD g d u) ∧
    (∀ u ∈ (buildFrontierLoop g d fuel seen fNums fUnk unknowns).2.2,
      solverSafeGet g d u = some '?') := by
  intro fuel
  induction fuel with
  | zero =>
    intro seen fNums fUnk unknowns hnd hsub _ hadj hq
    exact ⟨hnd, fun p hp => Or.inl hp, fun p hp => hp, hsub, hadj, hq⟩
  | succ fuel ih =>
    intro seen fNums fUnk unknowns hnd hsub hun hadj hq
    by_cases hemp : unknowns.isEmpty = true
    · have hb : buildFrontierLoop g d (fuel + 1) seen fNums fUnk unknowns =
          (seen, fNums, fUnk) := by
        unfold buildFrontierLoop
        rw [if_pos hemp]
      rw [hb]
      exact ⟨hnd, fun p hp => Or.inl hp, fun p hp => hp, hsub, hadj, hq⟩
    · set nextNumbers := unknowns.foldl (fun acc mn =>
        SUnion acc (surroundPos g d mn.1 mn.2
          (fun p v => v.isDigit && decide (p ∉ seen)))) [] with hnn
      set fNums2 := SUnion fNums nextNumbers with hfn2
      set seen2 := SUnion seen nextNumbers with hs2
      set unknowns2 := nextNumbers.foldl (fun acc mn =>
        SUnion acc (surroundPos g d mn.1 mn.2
          (fun p v => (v == '?') && decide (p ∉ seen2)))) [] with hu2
      set fUnk2 := SUnion fUnk unknowns2 with hfu2
      set seen3 := SUnion seen2 unknowns2 with hs3
      have hb0 : buildFrontierLoop g d (fuel + 1) seen fNums fUnk unknowns =
          (if unknowns.isEmpty = true then (seen, fNums, fUnk)
           else buildFrontierLoop g d fuel seen3 fNums2 fUnk2 unknowns2) := rfl
      rw [if_neg hemp] at hb0
      rw [hb0]
      have hseen12 : ∀ p ∈ seen, p ∈ seen2 := by
        intro p hp
        rw [hs2, mem_SUnion]
        exact Or.inl hp
      have hseen23 : ∀ p ∈ seen2, p ∈ seen3 := by
        intro p hp
        rw [hs3, mem_SUnion]
        exact Or.inl hp
      have hunq : ∀ p ∈ unknowns2, solverSafeGet g d p = some '?' ∧ p ∉ seen2 ∧ ADJD g d p := by
        intro p hp
        rw [hu2, mem_foldl_SUnion] at hp
        rcases hp with hp | ⟨mn, hmn, hp⟩
        · cases hp
        · obtain ⟨hnb, v, hv, hc⟩ := mem_surroundPos.mp hp
          rw [Bool.and_eq_true, beq_iff_eq, decide_eq_true_eq] at hc
          refine ⟨by rw [hc.1] at hv; exact hv, hc.2, ?_⟩
          rw [hnn, mem_foldl_SUnion] at hmn
          rcases hmn with hmn | ⟨q2, hq2, hmn⟩
          · cases hmn
          · obtain ⟨-, w, hw, hcw⟩ := mem_surroundPos.mp hmn
            rw [Bool.and_eq_true, decide_eq_true_eq] at hcw
            exact ⟨(mn.1, mn.2), neighborsRC_symm hnb, w, hw, hcw.1⟩
      have hun2sub : ∀ p ∈ unknowns2, p ∈ seen3 := by
        intro p hp
        rw [hs3, mem_SUnion]
        exact Or.inr hp
      have hih := ih seen3 fNums2 fUnk2 unknowns2
        (nodup_SUnion unknowns2 hnd)
        (by
          intro p hp
          rw [hfu2, mem_SUnion] at hp
          rcases hp with hp | hp
          · exact hseen23 _ (hseen12 _ (hsub p hp))
          · exact hun2sub p hp)
        hun2sub
        (by
          intro u hu
          rw [hfu2, mem_SUnion] at hu
          rcases hu with hu | hu
          · exact hadj u hu
          · exact (hunq u hu).2.2)
        (by
          intro u hu
          rw [hfu2, mem_SUnion] at hu
          rcases hu with hu | hu
          · exact hq u hu
          · exact (hunq u hu).1)
      obtain ⟨a2, b2, c2, d2, e2, f2⟩ := hih
      refine ⟨a2, ?_, ?_, d2, e2, f2⟩
      · intro p hp
        rcases b2 p hp with hp2 | hp2
        · rw [hfu2, mem_SUnion] at hp2
          rcases hp2 with hp2 | hp2
          · exact Or.inl hp2
          · exact Or.inr (fun hps => (hunq p hp2).2.1 (hseen12 p hps))
        · exact Or.inr (fun hps => hp2 (hseen23 _ (hseen12 _ hps)))
      · intro p hp
        exact c2 p (hseen23 _ (hseen12 _ hp))

/-- Invariants of the frontier-building fold: every frontier's unknown list
is duplicate-free, adjacent to a numbered square, reads `'?'`, and is
covered by the shared `seen` set; distinct frontiers have disjoint unknown
lists. -/
theorem buildStep_fold (g : GameCtx) (d : Dyn) (nm : List Pos) :
    ∀ (numbered : List Pos),
      (∀ q ∈ numbered, ∃ c, solverSafeGet g d q = some c ∧ c.isDigit = true) →
      ∀ acc : List Frontier × List Pos,
        (∀ f ∈ acc.1, f.unknowns.Nodup ∧ (∀ u ∈ f.unknowns, ADJD g d u) ∧
          (∀ u ∈ f.unknowns, solverSafeGet g d u = some '?') ∧
          (∀ u ∈ f.unknowns, u ∈ acc.2)) →
        FrSep acc.1 →
        (∀ f ∈ (numbered.foldl (buildStep g d nm) acc).1, f.unknowns.Nodup ∧
          (∀ u ∈ f.unknowns, ADJD g d u) ∧
          (∀ u ∈ f.unknowns, solverSafeGet g d u = some '?') ∧
          (∀ u ∈ f.unknowns, u ∈ (numbered.foldl (buildStep g d nm) acc).2)) ∧
        FrSep (numbered.foldl (buildStep g d nm) acc).1 := by
  intro numbered
  induction numbered with
  | nil =>
    intro _ acc hacc hsep
    exact ⟨hacc, hsep⟩
  | cons ij rest ih =>
    intro hnum acc hacc hsep
    rw [List.foldl_cons]
    by_cases hij : ij ∈ acc.2
    · have hstep : buildStep g d nm acc ij = acc := by
        unfold buildStep
        rw [if_pos hij]
      rw [hstep]
      exact ih (fun q hq => hnum q (List.mem_cons_of_mem ij hq)) acc hacc hsep
    · set seen1 := SInsert ij acc.2 with hs1
      set unknowns0 := surroundPos g d ij.1 ij.2
        (fun p v => (v == '?') && decide (p ∉ seen1)) with hu0
      set seenB := SUnion seen1 unknowns0 with hsnB
      set loopRes := buildFrontierLoop g d (g.rows.toNat * g.cols.toNat + 2)
        seenB [ij] unknowns0 unknowns0 with hlr
      set fMarks := nm.filter (fun mn =>
        ¬ (surround g d mn.1 mn.2
          (fun p v => v.isDigit && decide (p ∈ loopRes.2.1))).isEmpty) with hfm
      have hstep : buildStep g d nm acc ij =
          (acc.1 ++ [⟨loopRes.2.1, loopRes.2.2, fMarks⟩], loopRes.1) := by
        unfold buildStep
        rw [if_neg hij]
      rw [hstep]
      have hADJ0 : ∀ u ∈ unknowns0, ADJD g d u := by
        intro u hu
        obtain ⟨hnb, v, hv, hc⟩ := mem_surroundPos.mp hu
        obtain ⟨c, hcq, hcd⟩ := hnum ij (List.mem_cons_self ij rest)
        exact ⟨(ij.1, ij.2), neighborsRC_symm hnb, c, hcq, hcd⟩
      have hQ0 : ∀ u ∈ unknowns0, solverSafeGet g d u = some '?' := by
        intro u hu
        obtain ⟨-, v, hv, hc⟩ := mem_surroundPos.mp hu
        rw [Bool.and_eq_true, beq_iff_eq] at hc
        rw [hc.1] at hv
        exact hv
      have hF0 : ∀ u ∈ unknowns0, u ∉ acc.2 := by
        intro u hu hmemacc
        obtain ⟨-, v, hv, hc⟩ := mem_surroundPos.mp hu
        rw [Bool.and_eq_true, decide_eq_true_eq] at hc
        exact hc.2 (by rw [hs1]; exact mem_SInsert.mpr (Or.inr hmemacc))
      have hsub0 : ∀ p ∈ unknowns0, p ∈ seenB := by
        intro p hp
        rw [hsnB]
        exact mem_SUnion.mpr (Or.inr hp)
      obtain ⟨aN, bF, cS, dS, eA, fQ⟩ := bfl_inv g d (g.rows.toNat * g.cols.toNat + 2)
        seenB [ij] unknowns0 unknowns0 nodup_surroundPos hsub0 hsub0 hADJ0 hQ0
      have hfresh : ∀ u ∈ loopRes.2.2, u ∉ acc.2 := by
        intro u hu hacc2
        rcases bF u hu with h | h
        · exact hF0 u h hacc2
        · exact h (by
            rw [hsnB]
            exact mem_SUnion.mpr (Or.inl (by
              rw [hs1]
              exact mem_SInsert.mpr (Or.inr hacc2))))
      have haccseen : ∀ p ∈ acc.2, p ∈ loopRes.1 := by
        intro p hp
        exact cS p (by
          rw [hsnB]
          exact mem_SUnion.mpr (Or.inl (by
            rw [hs1]
            exact mem_SInsert.mpr (Or.inr hp))))
      apply ih (fun q hq => hnum q (List.mem_cons_of_mem ij hq))
      · intro f hf
        rcases List.mem_append.mp hf with hf2 | hf2
        · obtain ⟨h1, h2, h3, h4⟩ := hacc f hf2
          exact ⟨h1, h2, h3, fun u hu => haccseen u (h4 u hu)⟩
        · rw [List.mem_singleton] at hf2
          subst hf2
          exact ⟨aN, eA, fQ, dS⟩
      · unfold FrSep at hsep ⊢
        rw [List.pairwise_append]
        refine ⟨hsep, by simp, ?_⟩
        intro f1 hf1 f2 hf2
        rw [List.mem_singleton] at hf2
        subst hf2
        intro u hu huf1
        exact hfresh u hu ((hacc f1 hf1).2.2.2 u huf1)

/-- The facts `markSafeAndMines` needs about its built frontiers. -/
theorem buildFrontiers_inv (g : GameCtx) (d : Dyn) (numbered seen0 nm : List Pos)
    (hnum : ∀ q ∈ numbered, ∃ c, solverSafeGet g d q = some c ∧ c.isDigit = true) :
    (∀ f ∈ (buildFrontiers g d numbered seen0 nm).1, f.unknowns.Nodup ∧
      (∀ u ∈ f.unknowns, ADJD g d u) ∧
      (∀ u ∈ f.unknowns, solverSafeGet g d u = some '?')) ∧
    FrSep (buildFrontiers g d numbered seen0 nm).1 := by
  have heq : buildFrontiers g d numbered seen0 nm =
      numbered.foldl (buildStep g d nm) ([], seen0) := rfl
  rw [heq]
  obtain ⟨h1, h2⟩ := buildStep_fold g d nm numbered hnum ([], seen0)
    (by intro f hf; cases hf) List.Pairwise.nil
  exact ⟨fun f hf => ⟨(h1 f hf).1, (h1 f hf).2.1, (h1 f hf).2.2.1⟩, h2⟩

/-- A non-frontier unknown reads `'?'` and has no adjacent numbered square. -/
theorem nfu_mem {g : GameCtx} {d : Dyn} {p : Pos} (hp : p ∈ getNonFrontierUnknowns g d) :
    solverSafeGet g d p = some '?' ∧ surroundCount g d p.1 p.2 isNumP = 0 := by
  unfold getNonFrontierUnknowns at hp
  rw [List.mem_filter] at hp
  obtain ⟨-, hc⟩ := hp
  rw [Bool.and_eq_true, beq_iff_eq, beq_iff_eq] at hc
  exact hc

/-- The three possible outcomes of `checkFrontiersWereSplitUp`. -/
theorem cfwsu_cases (g : GameCtx) (d : Dyn) (fs : List Frontier) :
    (checkFrontiersWereSplitUp g d fs).1 = d ∨
    (checkFrontiersWereSplitUp g d fs).1 =
      {d with safeUnrevealed := SUnion d.safeUnrevealed (getNonFrontierUnknowns g d)} ∨
    (checkFrontiersWereSplitUp g d fs).1 =
      {d with mines := SUnion d.mines (getNonFrontierUnknowns g d)} := by
  unfold checkFrontiersWereSplitUp
  dsimp only
  split_ifs
  · exact Or.inl rfl
  · exact Or.inl rfl
  · exact Or.inr (Or.inl rfl)
  · exact Or.inr (Or.inr rfl)
  · exact Or.inl rfl

/-- The three possible outcomes of `checkFrontierMineRanges`. -/
theorem cfmr_cases (g : GameCtx) (d : Dyn) :
    (checkFrontierMineRanges g d).1 = d ∨
    (checkFrontierMineRanges g d).1 =
      {d with mines := SUnion d.mines (getNonFrontierUnknowns g d)} ∨
    (checkFrontierMineRanges g d).1 =
      {d with safeUnrevealed := SUnion d.safeUnrevealed (getNonFrontierUnknowns g d)} := by
  unfold checkFrontierMineRanges
  dsimp only
  split_ifs
  · exact Or.inl rfl
  · exact Or.inr (Or.inl rfl)
  · exact Or.inr (Or.inr rfl)
  · exact Or.inl rfl

/-- `checkFrontiersWereSplitUp` preserves disjointness. -/
theorem cfwsu_inv {g : GameCtx} {d : Dyn} {fs : List Frontier} (hd : DisjointMS d) :
    DisjointMS (checkFrontiersWereSplitUp g d fs).1 := by
  rcases cfwsu_cases g d fs with h | h | h <;> rw [h]
  · exact hd
  · intro p hp hps
    rcases mem_SUnion.mp hps with hps2 | hps2
    · exact hd p hp hps2
    · exact (solverSafeGet_unknown_notMem (nfu_mem hps2).1).1 hp
  · intro p hp hps
    rcases mem_SUnion.mp hp with hp2 | hp2
    · exact hd p hp2 hps
    · exact (solverSafeGet_unknown_notMem (nfu_mem hp2).1).2 hps

/-- `checkFrontierMineRanges` preserves disjointness. -/
theorem cfmr_inv {g : GameCtx} {d : Dyn} (hd : DisjointMS d) :
    DisjointMS (checkFrontierMineRanges g d).1 := by
  rcases cfmr_cases g d with h | h | h <;> rw [h]
  · exact hd
  · intro p hp hps
    rcases mem_SUnion.mp hp with hp2 | hp2
    · exact hd p hp2 hps
    · exact (solverSafeGet_unknown_notMem (nfu_mem hp2).1).2 hps
  · intro p hp hps
    rcases mem_SUnion.mp hps with hps2 | hps2
    · exact hd p hp hps2
    · exact (solverSafeGet_unknown_notMem (nfu_mem hps2).1).1 hp

/-- The tally loop keeps the `newMarks` bookkeeping invariants. -/
theorem tallyLoop_nm (g : GameCtx) (ns : Nat) (cnt : Pos → Nat) :
    ∀ (us : List Pos) (d : Dyn) (nm : List Pos),
      NMSub d nm → NMWf g nm → (∀ u ∈ us, u ∈ allCells g) →
      ∀ d4 nm4, tallyLoop ns cnt us d nm = ERes.next d4 nm4 →
        NMSub d4 nm4 ∧ NMWf g nm4 := by
  intro us
  induction us with
  | nil =>
    intro d nm h1 h2 _ d4 nm4 h
    cases h
    exact ⟨h1, h2⟩
  | cons u us ih =>
    intro d nm h1 h2 hall d4 nm4 h
    by_cases h0 : cnt u = 0
    · simp only [tallyLoop, if_pos h0] at h
      cases h
    · by_cases hn : cnt u = ns
      · simp only [tallyLoop, if_neg h0, if_pos hn] at h
        refine ih _ _ ?_ ?_ (fun v hv => hall v (List.mem_cons_of_mem u hv)) d4 nm4 h
        · intro p hp
          rcases mem_SInsert.mp hp with rfl | hp2
          · exact Or.inl (mem_SInsert.mpr (Or.inl rfl))
          · rcases h1 p hp2 with hh | hh
            · exact Or.inl (mem_SInsert.mpr (Or.inr hh))
            · exact Or.inr hh
        · refine ⟨nodup_SInsert h2.1, ?_⟩
          intro p hp
          rcases mem_SInsert.mp hp with rfl | hp2
          · exact hall p (List.mem_cons_self p us)
          · exact h2.2 p hp2
      · simp only [tallyLoop, if_neg h0, if_neg hn] at h
        exact ih
          {d with squaresByProb := probInsert (pfRatio (cnt u) ns) u d.squaresByProb} nm
          h1 h2 (fun v hv => hall v (List.mem_cons_of_mem u hv)) d4 nm4 h

/-- One frontier's enumeration keeps the `newMarks` bookkeeping invariants. -/
theorem processFrontier_nm (g : GameCtx) (f : Frontier) (d : Dyn) (nm : List Pos)
    (h1 : NMSub d nm) (h2 : NMWf g nm) (hall : ∀ u ∈ f.unknowns, u ∈ allCells g) :
    ∀ d4 nm4, processFrontier g f d nm = ERes.next d4 nm4 → NMSub d4 nm4 ∧ NMWf g nm4 := by
  intro d4 nm4 h
  rcases processFrontier_eq g f d nm with hc | ⟨ns, cnt, d2, hm2, hs2, heq⟩
  · rw [hc] at h
    cases h
  · rw [heq] at h
    refine tallyLoop_nm g ns cnt f.unknowns d2 nm ?_ h2 hall d4 nm4 h
    intro p hp
    rcases h1 p hp with hh | hh
    · exact Or.inl (by rw [hm2]; exact hh)
    · exact Or.inr (by rw [hs2]; exact hh)

/-- The whole enumeration loop keeps the `newMarks` bookkeeping invariants. -/
theorem processFrontiers_nm (g : GameCtx) : ∀ (fs : List Frontier) (d : Dyn) (nm : List Pos),
    NMSub d nm → NMWf g nm → (∀ f ∈ fs, ∀ u ∈ f.unknowns, u ∈ allCells g) →
    ∀ d4 nm4, processFrontiers g fs d nm = ERes.next d4 nm4 →
      NMSub d4 nm4 ∧ NMWf g nm4 := by
  intro fs
  induction fs with
  | nil =>
    intro d nm h1 h2 _ d4 nm4 h
    cases h
    exact ⟨h1, h2⟩
  | cons f fs ih =>
    intro d nm h1 h2 hall d4 nm4 h
    simp only [processFrontiers] at h
    cases hp : processFrontier g f d nm with
    | crash =>
      rw [hp] at h
      cases h
    | stop d2 =>
      rw [hp] at h
      cases h
    | next d2 nm2 =>
      rw [hp] at h
      obtain ⟨ha, hb⟩ := processFrontier_nm g f d nm h1 h2
        (hall f (List.mem_cons_self f fs)) d2 nm2 hp
      exact ih d2 nm2 ha hb (fun f2 hf2 => hall f2 (List.mem_cons_of_mem f hf2)) d4 nm4 h

/-- `markSafeAndMines` in terms of its named stages. -/
theorem markSafeAndMines_eq (g : GameCtx) (d0 : Dyn) :
    markSafeAndMines g d0 =
      (if ¬ (msLoop1 g d0).1.safeUnrevealed.isEmpty then some (msLoop1 g d0).1
       else if ¬ (msD3 g d0).safeUnrevealed.isEmpty then some (msD3 g d0)
       else match msEnum g d0 with
       | .crash => none
       | .stop dE => some dE
       | .next d4 nm4 => some (msPost g d4 nm4 (msLoop1 g d0).2.1)) := rfl

/-- `msPost` in terms of its named stages. -/
theorem msPost_eq (g : GameCtx) (d4 : Dyn) (nm4 : List Pos) (fs : List Frontier) :
    msPost g d4 nm4 fs =
      {msD11 g d4 nm4 fs with squaresByProb :=
        (msD11 g d4 nm4 fs).squaresByProb.filterMap (fun kv =>
          let kept := kv.2.filter (fun sq => decide (sq ∉ (msD11 g d4 nm4 fs).mines))
          if kept.isEmpty then none else some (kv.1, kept))} := rfl

/-- The post-enumeration tail preserves disjointness. -/
theorem msPost_inv (g : GameCtx) (d4 : Dyn) (nm4 : List Pos) (fs : List Frontier)
    (hd : DisjointMS d4) (h1 : NMSub d4 nm4) (h2 : NMWf g nm4) :
    DisjointMS (msPost g d4 nm4 fs) := by
  obtain ⟨hste, -, -⟩ := fixLoop_out g (g.rows.toNat * g.cols.toNat + 2) d4 fs nm4 h1 h2
    (by rw [length_allCells]; omega)
  have hd5 : DisjointMS (msLoop2 g d4 nm4 fs).1 := hste.2.2.1 hd
  have hd9 : DisjointMS (msD9 g d4 nm4 fs) := hd5
  have hd10 : DisjointMS (checkFrontierMineRanges g (msD9 g d4 nm4 fs)).1 := cfmr_inv hd9
  have hd11 : DisjointMS (msD11 g d4 nm4 fs) := cfwsu_inv hd10
  rw [msPost_eq]
  exact hd11

/-- `markSafeAndMines` preserves disjointness of `mines` and
`safeUnrevealed`. -/
theorem Ste_pass1Step (g : GameCtx) (a : Dyn × List Pos × List Pos) (b : Pos) :
    Ste g (a.1, a.2.1) ((pass1Step g a b).1, (pass1Step g a b).2.1) :=
  Ste_analyzeNumSquare g a.1 b.1 b.2 a.2.1

theorem Ste_pass2Step (g : GameCtx) (a : Dyn × List Pos × List Pos) (b : Pos) :
    Ste g (a.1, a.2.1) ((pass2Step g a b).1, (pass2Step g a b).2.1) := by
  unfold pass2Step
  by_cases hmem : b ∈ a.2.2
  · rw [if_pos hmem]
    exact Ste_refl g _
  · rw [if_neg hmem]
    exact Ste_pass1Step g a b

/-- The initial passes as folds of their named step functions. -/
theorem msPass_eq (g : GameCtx) (d0 : Dyn) :
    msPass g d0 = (msNumbered g d0).reverse.foldl (pass2Step g)
      ((msNumbered g d0).foldl (pass1Step g) (d0, [], [])) := rfl

theorem markSafeAndMines_inv (g : GameCtx) (d0 : Dyn) (hd0 : DisjointMS d0) :
    ∀ d', markSafeAndMines g d0 = some d' → DisjointMS d' := by
  intro d' h
  rw [markSafeAndMines_eq] at h
  have hpass : Ste g (d0, []) ((msPass g d0).1, (msPass g d0).2.1) := by
    rw [msPass_eq]
    exact Ste_trans
      (Ste_foldl (fun (acc : Dyn × List Pos × List Pos) => (acc.1, acc.2.1))
        (pass1Step g) (Ste_pass1Step g) (msNumbered g d0) (d0, [], []))
      (Ste_foldl (fun (acc : Dyn × List Pos × List Pos) => (acc.1, acc.2.1))
        (pass2Step g) (Ste_pass2Step g) (msNumbered g d0).reverse _)
  have hd1 : DisjointMS (msPass g d0).1 := hpass.2.2.1 hd0
  have hnum1 : ∀ q ∈ msNumbered g d0,
      ∃ c, solverSafeGet g (msPass g d0).1 q = some c ∧ c.isDigit = true := by
    intro q hq
    unfold msNumbered at hq
    rw [List.mem_filter] at hq
    obtain ⟨-, hdig⟩ := hq
    cases hsg : solverSafeGet g d0 q with
    | none =>
      exfalso
      unfold getCh at hdig
      rw [hsg] at hdig
      exact absurd hdig (by decide)
    | some c =>
      have hgc : getCh g d0 q = c := by
        unfold getCh
        rw [hsg]
        rfl
      rw [hgc] at hdig
      have hcne : c ≠ '?' := by
        intro hc
        rw [hc] at hdig
        exact absurd hdig (by decide)
      exact ⟨c, hpass.2.2.2.2.1 q c hsg hcne, hdig⟩
  have hbuild := buildFrontiers_inv g (msPass g d0).1 (msNumbered g d0) (msPass g d0).2.2
    (msPass g d0).2.1 hnum1
  have hnmsub1 : NMSub (msPass g d0).1 (msPass g d0).2.1 :=
    hpass.2.2.2.1 (by intro p hp; cases hp)
  have hnmwf1 : NMWf g (msPass g d0).2.1 :=
    hpass.2.2.2.2.2.2.2 ⟨List.nodup_nil, by intro p hp; cases hp⟩
  obtain ⟨hlste, hlfa, hlexit⟩ := fixLoop_out g (g.rows.toNat * g.cols.toNat + 2)
    (msPass g d0).1 (msFrontiers g d0).1 (msPass g d0).2.1 hnmsub1 hnmwf1
    (by rw [length_allCells]; omega)
  have hd2 : DisjointMS (msLoop1 g d0).1 := hlste.2.2.1 hd1
  by_cases hg1 : ¬ (msLoop1 g d0).1.safeUnrevealed.isEmpty = true
  · rw [if_pos hg1] at h
    injection h with h2
    subst h2
    exact hd2
  · rw [if_neg hg1] at h
    push_neg at hg1
    have hallq : ∀ f ∈ (msLoop1 g d0).2.1, ∀ u ∈ f.unknowns,
        solverSafeGet g (msLoop1 g d0).1 u = some '?' := by
      rcases hlexit with hx | hx
      · exact absurd hg1 hx
      · exact hx
    have hd3 : DisjointMS (msD3 g d0) := cfwsu_inv hd2
    by_cases hg2 : ¬ (msD3 g d0).safeUnrevealed.isEmpty = true
    · rw [if_pos hg2] at h
      injection h with h2
      subst h2
      exact hd3
    · rw [if_neg hg2] at h
      push_neg at hg2
      have hsafe3 : (msD3 g d0).safeUnrevealed = [] := List.isEmpty_iff.mp hg2
      have hfr : ∀ f2 ∈ (msLoop1 g d0).2.1, f2.unknowns.Nodup ∧
          (∀ u ∈ f2.unknowns, ADJD g (msPass g d0).1 u) := by
        intro f2 hf2
        obtain ⟨f, hf, hrel⟩ := forall2_mem_right hlfa f2 hf2
        obtain ⟨hnd, hadj, -⟩ := hbuild.1 f hf
        exact ⟨hrel.2 hnd, fun u hu => hadj u (hrel.1 u hu)⟩
      have hnotmine : ∀ f2 ∈ (msLoop1 g d0).2.1, ∀ u ∈ f2.unknowns,
          u ∉ (msD3 g d0).mines := by
        intro f2 hf2 u hu hmem
        have hq2 : solverSafeGet g (msLoop1 g d0).1 u = some '?' := hallq f2 hf2 u hu
        have hnm2 : u ∉ (msLoop1 g d0).1.mines := (solverSafeGet_unknown_notMem hq2).1
        have hd3m : msD3 g d0 =
            (checkFrontiersWereSplitUp g (msLoop1 g d0).1 (msLoop1 g d0).2.1).1 := rfl
        rw [hd3m] at hmem
        rcases cfwsu_cases g (msLoop1 g d0).1 (msLoop1 g d0).2.1 with hc | hc | hc <;>
          rw [hc] at hmem
        · exact hnm2 hmem
        · exact hnm2 hmem
        · rcases mem_SUnion.mp hmem with hm2 | hnfu
          · exact hnm2 hm2
          · obtain ⟨q, hqn, c, hqv, hqd⟩ := (hfr f2 hf2).2 u hu
            have hcne : c ≠ '?' := by
              intro hceq
              rw [hceq] at hqd
              exact absurd hqd (by decide)
            have hqv2 : solverSafeGet g (msLoop1 g d0).1 q = some c :=
              hlste.2.2.2.2.1 q c hqv hcne
            exact surroundCount_ne_zero hqn hqv2 hqd (nfu_mem hnfu).2
      have hsep2 : FrSep (msLoop1 g d0).2.1 := forall2_FrSep hlfa hbuild.2
      have hpf := processFrontiers_inv g (msLoop1 g d0).2.1 (msD3 g d0) []
        hd3 hsafe3 (fun f hf => (hfr f hf).1) hnotmine hsep2
      cases henum : msEnum g d0 with
      | crash =>
        rw [henum] at h
        cases h
      | stop dE =>
        rw [henum] at h
        injection h with h2
        subst h2
        exact hpf.1 dE henum
      | next d4 nm4 =>
        rw [henum] at h
        injection h with h2
        subst h2
        have hd4 : DisjointMS d4 := hpf.2 d4 nm4 henum
        have hall4 : ∀ f ∈ (msLoop1 g d0).2.1, ∀ u ∈ f.unknowns, u ∈ allCells g := by
          intro f hf u hu
          exact unknown_mem_allCells (hallq f hf u hu)
        obtain ⟨hnmsub4, hnmwf4⟩ := processFrontiers_nm g (msLoop1 g d0).2.1 (msD3 g d0) []
          (by intro p hp; cases hp) ⟨List.nodup_nil, by intro p hp; cases hp⟩ hall4
          d4 nm4 henum
        exact msPost_inv g d4 nm4 (msLoop1 g d0).2.1 hd4 hnmsub4 hnmwf4

/-- A normally-returning `analyzeBoard` preserves disjointness. -/
theorem analyzeBoard_inv (g : GameCtx) (d : Dyn) (hd : DisjointMS d) :
    ∀ d', analyzeBoard g d = some d' → DisjointMS d' := by
  intro d' h
  unfold analyzeBoard at h
  refine markSafeAndMines_inv g _ ?_ d' h
  intro p hp hps
  exact hd p hp (List.mem_of_mem_filter hps)

theorem map_pair_fst {α β : Type} {o : Option β} {d : α} {dm : α × β}
    (h : o.map (fun m => (d, m)) = some dm) : dm.1 = d := by
  cases o with
  | none => cases h
  | some m =>
    injection h with h2
    subst h2
    rfl

/-- A move-returning `determineMove` preserves disjointness. -/
theorem determineMove_inv (g : GameCtx) (d : Dyn) (r : Nat) (hd : DisjointMS d) :
    ∀ dm, determineMove g d r = some dm → DisjointMS dm.1 := by
  intro dm h
  unfold determineMove at h
  cases hs : d.safeUnrevealed with
  | cons m rest =>
    rw [hs] at h
    injection h with h2
    subst h2
    intro p hp hps
    exact hd p hp (by rw [hs]; exact List.mem_cons_of_mem m hps)
  | nil =>
    rw [hs] at h
    dsimp only at h
    split_ifs at h with h1 h2 h3
    all_goals
      first
        | (rw [map_pair_fst h]
           exact hd)
        | (rw [map_pair_fst h.symm]
           exact hd)
        | (cases h <;> exact hd)

section ClaimNine

/-- C9.  The invariant `mines ∩ safeUnrevealed = ∅` holds in the fresh
solver state (`resetSolverState`), is preserved by every `analyzeBoard`
call that returns normally (including all of its marking subroutines:
the `analyzeNumSquare` passes and fixpoint sweeps, the frontier build, the
split-up and mine-range checks, and the per-frontier enumeration) and by
every `determineMove` call that returns a move, and consequently holds in
every solver state reachable within a game. -/
theorem C9_disjoint_invariant :
    DisjointMS initDyn ∧
    (∀ (g : GameCtx) (d d' : Dyn), DisjointMS d → analyzeBoard g d = some d' →
      DisjointMS d') ∧
    (∀ (g : GameCtx) (d : Dyn) (r : Nat) (dm : Dyn × Pos), DisjointMS d →
      determineMove g d r = some dm → DisjointMS dm.1) ∧
    (∀ (g : GameCtx) (d : Dyn), Reachable g d → DisjointMS d) := by
  have hinit : DisjointMS initDyn := fun p hp => absurd hp (List.not_mem_nil p)
  refine ⟨hinit, fun g d d' hd h => analyzeBoard_inv g d hd d' h,
    fun g d r dm hd h => determineMove_inv g d r hd dm h, ?_⟩
  intro g d hreach
  induction hreach with
  | init g => exact hinit
  | reveal g g' d hr ih => exact ih
  | analyze g d d' hr h ih => exact analyzeBoard_inv g d ih d' h
  | move g d r dm hr h ih => exact determineMove_inv g d r ih dm h

/-- Witness: on the 1x1 mine-free board, `analyzeBoard` from the fresh
state returns the fresh state, and C9 yields its disjointness. -/
theorem C9_disjoint_invariant_witness :
    analyzeBoard gFix initDyn = some initDyn ∧ DisjointMS initDyn :=
  ⟨by decide, C9_disjoint_invariant.2.1 gFix initDyn initDyn
    (fun p hp => absurd hp (List.not_mem_nil p)) (by decide)⟩

end ClaimNine

end MSW
